import Mathlib

/-!
# Soundbox flash-archive codec: shallow embedding and verification

This file embeds the archive codec of `soundbox.py` (CRC-16 engine,
32-byte directory-entry parsing, sentinel-terminated slot scan,
verify-then-return decode, and the file packer) as executable Lean
definitions over byte lists (`List Nat`, each element a byte value),
and proves the specified properties about them.
-/

set_option maxRecDepth 100000

namespace Soundbox

/-! ## Checksum engine

`crc16_ccitt = crcmod.mkCrcFun(0x11021, initCrc=0x0000, xorOut=0x0000, rev=False)`:
a 16-bit CRC with polynomial 0x1021, MSB-first (non-reflected), initial
register 0, no final XOR.  One shift step of the register: -/

def crc16Poly (c : Nat) : Nat :=
  if c.testBit 15 then 0x1021 else 0

def crc16Step (c : Nat) : Nat :=
  ((c <<< 1) ^^^ crc16Poly c) &&& 0xFFFF

/-- Feed one byte: XOR it into the high byte of the register, then shift 8 times. -/
def crc16Byte (c b : Nat) : Nat :=
  crc16Step^[8] (c ^^^ (b <<< 8))

/-- Left fold of `crc16Byte` over the message.  The conditional is the
identity (both branches are equal); it only forces each intermediate
register value to a numeral during definitional evaluation, which keeps
kernel reduction of concrete checksums shallow. -/
def crc16Go : Nat → List Nat → Nat
  | c, [] => c
  | c, b :: rest =>
    let c2 := crc16Byte c b
    if c2 < 0x10000 then crc16Go c2 rest else crc16Go c2 rest

/-- CRC of a byte sequence, initial register 0. -/
def crc16 (m : List Nat) : Nat :=
  crc16Go 0 m

theorem crc16Go_cons (c b : Nat) (rest : List Nat) :
    crc16Go c (b :: rest) = crc16Go (crc16Byte c b) rest := by
  simp [crc16Go]

theorem crc16Go_eq_foldl (c : Nat) (m : List Nat) :
    crc16Go c m = m.foldl crc16Byte c := by
  induction m generalizing c with
  | nil => rfl
  | cons b rest ih => rw [crc16Go_cons, List.foldl_cons, ih]

/-- The CRC is the plain left fold of the byte step over the message. -/
theorem crc16_eq_foldl (m : List Nat) : crc16 m = m.foldl crc16Byte 0 :=
  crc16Go_eq_foldl 0 m

example : crc16 [49, 50, 51, 52, 53, 54, 55, 56, 57] = 0x31C3 := by decide

example : crc16 [] = 0 := by decide

/-! ## Byte-level helpers

Little-endian readers and writers for the `struct.unpack('<H H I I B 3s')`
and `struct.pack('<H I I B 3s 16s')` field codings. -/

/-- Value of a little-endian byte list. -/
def leVal (bs : List Nat) : Nat := bs.foldr (fun b acc => b + 256 * acc) 0

/-- Two little-endian bytes of a 16-bit value. -/
def le16 (v : Nat) : List Nat := [v % 256, v / 256 % 256]

/-- Four little-endian bytes of a 32-bit value. -/
def le32 (v : Nat) : List Nat :=
  [v % 256, v / 256 % 256, v / 256 ^ 2 % 256, v / 256 ^ 3 % 256]

/-- Normalize one Python slice index for a sequence of length `n`:
a negative index counts from the end, and the result is clamped to `[0, n]`. -/
def pyIdx (n : Nat) (i : Int) : Nat :=
  if i < 0 then n - (-i).toNat else min i.toNat n

/-- Python slice `l[a:b]` (step 1). -/
def pySlice (l : List Nat) (a b : Int) : List Nat :=
  (l.take (pyIdx l.length b)).drop (pyIdx l.length a)

/-! ## Data model: one 32-byte directory record -/

inductive EntryType where
  | File
  | Directory
  | Unknown
deriving DecidableEq, Repr

structure Entry where
  headerCRC : Nat
  dataCRC : Nat
  offset : Nat
  size : Nat
  typeFlag : Nat
  unknown1 : List Nat
  nameField : List Nat
  entryData : List Nat
deriving DecidableEq, Repr

instance : Inhabited Entry :=
  ⟨⟨0, 0, 0, 0, 0, [], [], []⟩⟩

/-- Interpretation of the 1-byte type flag (0x02 → File, 0x03 → Directory). -/
def Entry.entryType (e : Entry) : EntryType :=
  if e.typeFlag = 0x02 then .File else if e.typeFlag = 0x03 then .Directory else .Unknown

/-- The decoded name: `entry_data[16:32].split(b'\x00', 1)[0]` — the name-field
bytes up to (excluding) the first NUL, or all 16 bytes when no NUL occurs. -/
def Entry.name (e : Entry) : List Nat := e.nameField.takeWhile (fun b => b ≠ 0)

/-- `parse_entry`: unpack a 32-byte slot.  Field layout
`<H H I I B 3s 16s` (all integers little-endian); `entryData` keeps the
30 bytes after the header CRC for the header-CRC check. -/
def parse_entry (entry_data : List Nat) : Entry :=
  { headerCRC := leVal (entry_data.take 2)
    dataCRC := leVal ((entry_data.drop 2).take 2)
    offset := leVal ((entry_data.drop 4).take 4)
    size := leVal ((entry_data.drop 8).take 4)
    typeFlag := leVal ((entry_data.drop 12).take 1)
    unknown1 := (entry_data.drop 13).take 3
    nameField := (entry_data.drop 16).take 16
    entryData := entry_data.drop 2 }

/-- `verify_header_crc`: `true` stands for the "Header CRC OK" status string. -/
def verify_header_crc (e : Entry) : Bool :=
  crc16 e.entryData == e.headerCRC

/-- The byte span handed to the checksum engine by `verify_data_crc`:
`data[offset : offset + size]`, with `size` first decreased by 32 for a
Directory entry (Python slice semantics throughout). -/
def payloadDomain (e : Entry) (data : List Nat) : List Nat :=
  pySlice data (e.offset : Int)
    ((e.offset : Int) + (if e.entryType = .Directory then (e.size : Int) - 32 else (e.size : Int)))

/-- `verify_data_crc`: `true` stands for the "Data CRC OK" status string. -/
def verify_data_crc (e : Entry) (data : List Nat) : Bool :=
  crc16 (payloadDomain e data) == e.dataCRC

/-! ## Decode: sentinel-terminated slot scan, then verification -/

/-- The last-entry sentinel marker `FF 01 00`. -/
def sentinel : List Nat := [0xFF, 0x01, 0x00]

/-- The 32-byte slot at index `i`. -/
def slotAt (data : List Nat) (i : Nat) : List Nat := (data.drop (32 * i)).take 32

/-- The scan loop of `read_bin_file`: at most `n` more slots starting at
slot index `i`; an entry is appended first, then the sentinel stops the scan. -/
def collectFrom (data : List Nat) : Nat → Nat → List Entry
  | 0, _ => []
  | n + 1, i =>
    let e := parse_entry (slotAt data i)
    if e.unknown1 = sentinel then [e] else e :: collectFrom data n (i + 1)

/-- All entries collected by `read_bin_file`: `len(data) // 32` slots from index 0. -/
def collectEntries (data : List Nat) : List Entry :=
  collectFrom data (data.length / 32) 0

/-- The verification loop of `read_bin_file`: entries in original order,
abort (`exit()`) at the first header- or data-CRC failure. -/
def verifyEntries (data : List Nat) : List Entry → Bool
  | [] => true
  | e :: rest =>
    if verify_header_crc e && verify_data_crc e data then verifyEntries data rest else false

/-- `read_bin_file` on an in-memory buffer: `none` models the fatal
`exit()` on the first CRC mismatch; otherwise the entry list and the raw
buffer are returned. -/
def read_bin_file (data : List Nat) : Option (List Entry × List Nat) :=
  if verifyEntries data (collectEntries data) then some (collectEntries data, data) else none

/-- The slice `data[offset : offset + size]` that `extract_files` writes out
for a File entry. -/
def extractData (e : Entry) (data : List Nat) : List Nat :=
  pySlice data (e.offset : Int) ((e.offset : Int) + (e.size : Int))

/-! ## Encode: `pack_files` -/

/-- `pad_to_multiple_of_16`: append `0xFF` bytes up to the next multiple of 16. -/
def pad_to_multiple_of_16 (file_data : List Nat) : List Nat :=
  file_data ++ List.replicate ((16 - file_data.length % 16) % 16) 0xFF

/-- `(name + b'\x00').ljust(16, b'\xFF')[:16]`. -/
def ljustName (name : List Nat) : List Nat :=
  ((name ++ [0]) ++ List.replicate 16 0xFF).take 16

/-- One packed 32-byte entry: header CRC over the 30-byte
`<H I I B 3s 16s` header data, prepended to it. -/
def mkEntryBytes (data_crc offset size type_flag : Nat) (unknown1 name16 : List Nat) :
    List Nat :=
  le16 (crc16 (le16 data_crc ++ (le32 offset ++ (le32 size ++
      ([type_flag] ++ (unknown1 ++ name16)))))) ++
    (le16 data_crc ++ (le32 offset ++ (le32 size ++ ([type_flag] ++ (unknown1 ++ name16)))))

/-- The per-file loop of `pack_files`: input is the ordered (name-bytes,
content-bytes) list, the accumulator is the running payload offset; returns
the header-entry byte lists, the concatenated padded payload, and the final
offset. The last file gets the sentinel marker `FF 01 00`. -/
def packEntries : List (List Nat × List Nat) → Nat → List (List Nat) × List Nat × Nat
  | [], offset => ([], [], offset)
  | (file_name, file_data) :: rest, offset =>
    let size := file_data.length
    let padded := pad_to_multiple_of_16 file_data
    let data_crc := crc16 file_data
    let unknown1 := if rest = [] then [0xFF, 0x01, 0x00] else [0xFF, 0x00, 0x00]
    let entry := mkEntryBytes data_crc offset size 0x02 unknown1 (ljustName file_name)
    let r := packEntries rest (offset + padded.length)
    (entry :: r.1, padded ++ r.2.1, r.2.2)

/-- The hard-coded directory-entry name `"test_dir"` of `pack_files`. -/
def testDirName : List Nat := [116, 101, 115, 116, 95, 100, 105, 114]

/-- `pack_files`: pack an ordered list of (name, content) files.  The running
offset starts after the `N + 1` header slots; the synthesized directory entry
(offset 0x20, the pre-adjustment final offset as size, type 0x03, marker
`FF 00 00`, name `"test_dir"`) is prepended, then all header slots and the
payload are concatenated. -/
def pack_files (files : List (List Nat × List Nat)) : List Nat :=
  let r := packEntries files (32 * (files.length + 1))
  let data_crc := crc16 (r.1.flatten ++ r.2.1)
  let dir_entry := mkEntryBytes data_crc 0x20 r.2.2 0x03 [0xFF, 0x00, 0x00] (ljustName testDirName)
  (dir_entry :: r.1).flatten ++ r.2.1

/-- Flip bit `j` of the byte at position `p`. -/
def flipBitAt (l : List Nat) (p j : Nat) : List Nat :=
  l.set p (l.getD p 0 ^^^ (1 <<< j))

example :
    read_bin_file (pack_files [([97], [1, 2, 3])]) =
      some (collectEntries (pack_files [([97], [1, 2, 3])]), pack_files [([97], [1, 2, 3])]) := by
  decide

example : (collectEntries (pack_files [([97], [1, 2, 3]), ([98], [5])])).length = 3 := by
  decide

/-- The contiguous span `l[a:b]` for already-normalized nonnegative indices. -/
def sliceNat (l : List Nat) (a b : Nat) : List Nat := (l.take b).drop a

/-! ## Basic facts about slices -/

theorem pyIdx_ofNat (n a : Nat) : pyIdx n (a : Int) = min a n := by
  simp [pyIdx]

theorem pySlice_ofNat (l : List Nat) (a b : Nat) :
    pySlice l (a : Int) (b : Int) = sliceNat l a b := by
  unfold pySlice sliceNat
  rw [pyIdx_ofNat, pyIdx_ofNat]
  rcases Nat.le_total b l.length with hb | hb
  · rw [Nat.min_eq_left hb]
    rcases Nat.le_total a l.length with ha | ha
    · rw [Nat.min_eq_left ha]
    · rw [Nat.min_eq_right ha]
      have h1 : (l.take b).length ≤ a := by
        simp [List.length_take]; omega
      have h2 : (l.take b).length ≤ l.length := by
        simp [List.length_take]
      rw [List.drop_eq_nil_of_le h1, List.drop_eq_nil_of_le (by omega)]
  · rw [Nat.min_eq_right hb, List.take_length, List.take_of_length_le hb]
    rcases Nat.le_total a l.length with ha | ha
    · rw [Nat.min_eq_left ha]
    · rw [Nat.min_eq_right ha, List.drop_eq_nil_of_le ha, List.drop_eq_nil_of_le le_rfl]

/-! ## C3 and the payload-checksum domain -/

/-- C3: for every decoded entry, `payload_ok` is true if and only if the
checksum of `archive[offset : offset+size]` (when the kind is File or
Unknown) or of `archive[offset : offset+size-32]` (when the kind is
Directory) equals the stored payload checksum. -/
theorem payload_ok_iff_span_checksum (e : Entry) (data : List Nat) :
    verify_data_crc e data = true ↔
      (if e.entryType = .Directory
       then crc16 (pySlice data (e.offset : Int) ((e.offset : Int) + (e.size : Int) - 32)) =
         e.dataCRC
       else crc16 (pySlice data (e.offset : Int) ((e.offset : Int) + (e.size : Int))) =
         e.dataCRC) := by
  by_cases h : e.entryType = .Directory
  · rw [if_pos h]
    unfold verify_data_crc payloadDomain
    rw [if_pos h, beq_iff_eq, add_sub_assoc]
  · rw [if_neg h]
    unfold verify_data_crc payloadDomain
    rw [if_neg h, beq_iff_eq]

/-- C9 counterexample: a Directory entry (type flag 3) whose stored size is
increased by 32 over an archive of 64 `0x01` bytes changes both the computed
payload checksum and the verification outcome. -/
theorem dir_size_plus32_changes_outcome_cex :
    verify_data_crc ⟨0, 0, 0, 32, 3, [], [], []⟩ (List.replicate 64 1) = true ∧
    verify_data_crc ⟨0, 0, 0, 64, 3, [], [], []⟩ (List.replicate 64 1) = false ∧
    crc16 (payloadDomain ⟨0, 0, 0, 64, 3, [], [], []⟩ (List.replicate 64 1)) ≠
      crc16 (payloadDomain ⟨0, 0, 0, 32, 3, [], [], []⟩ (List.replicate 64 1)) := by
  refine ⟨by decide, by decide, by decide⟩

/-- C9 (amended): a Directory entry whose size field is 32 larger than a File
entry's gets exactly the File entry's payload-checksum domain, so the +32 in
the declared size is cancelled and the computed outcome is that of the
underlying `size`-byte span. -/
theorem dir_size_plus32_eq_file_domain (hc dc off s : Nat) (u nf ed data : List Nat) :
    payloadDomain ⟨hc, dc, off, s + 32, 3, u, nf, ed⟩ data =
      payloadDomain ⟨hc, dc, off, s, 2, u, nf, ed⟩ data ∧
    verify_data_crc ⟨hc, dc, off, s + 32, 3, u, nf, ed⟩ data =
      verify_data_crc ⟨hc, dc, off, s, 2, u, nf, ed⟩ data := by
  have hdom : payloadDomain ⟨hc, dc, off, s + 32, 3, u, nf, ed⟩ data =
      payloadDomain ⟨hc, dc, off, s, 2, u, nf, ed⟩ data := by
    have h3 : (⟨hc, dc, off, s + 32, 3, u, nf, ed⟩ : Entry).entryType = EntryType.Directory := by
      simp [Entry.entryType]
    have h2 : (⟨hc, dc, off, s, 2, u, nf, ed⟩ : Entry).entryType = EntryType.File := by
      simp [Entry.entryType]
    unfold payloadDomain
    rw [h3, h2, if_pos rfl, if_neg (by decide : ¬ (EntryType.File = EntryType.Directory))]
    have harg : (((s + 32 : Nat) : Int) - 32) = (s : Int) := by push_cast; ring
    rw [harg]
  exact ⟨hdom, by simp only [verify_data_crc, hdom]⟩

/-- C10: for a Directory entry with `offset + size < 32` the slice end
`offset + size - 32` is negative, and Python interprets it relative to the
end of the buffer: the span actually checksummed is
`archive[offset : len(archive) + offset + size - 32]` (truncated subtraction;
the span is taken with plain nonnegative indices). -/
theorem dir_negative_slice_domain (e : Entry) (data : List Nat)
    (hdir : e.entryType = .Directory) (hs : e.offset + e.size < 32) :
    payloadDomain e data = sliceNat data e.offset (data.length + e.offset + e.size - 32) ∧
    verify_data_crc e data =
      (crc16 (sliceNat data e.offset (data.length + e.offset + e.size - 32)) == e.dataCRC) := by
  have hdom : payloadDomain e data =
      sliceNat data e.offset (data.length + e.offset + e.size - 32) := by
    unfold payloadDomain pySlice sliceNat
    rw [if_pos hdir]
    have hneg : ((e.offset : Int) + ((e.size : Int) - 32)) < 0 := by omega
    rw [pyIdx_ofNat]
    have hend : pyIdx data.length ((e.offset : Int) + ((e.size : Int) - 32)) =
        data.length + e.offset + e.size - 32 := by
      unfold pyIdx
      rw [if_pos hneg]
      omega
    rw [hend]
    rcases Nat.le_total e.offset data.length with ha | ha
    · rw [Nat.min_eq_left ha]
    · rw [Nat.min_eq_right ha]
      have h1 : (data.take (data.length + e.offset + e.size - 32)).length ≤ e.offset := by
        simp [List.length_take]; omega
      have h2 : (data.take (data.length + e.offset + e.size - 32)).length ≤ data.length := by
        simp [List.length_take]
      rw [List.drop_eq_nil_of_le h1, List.drop_eq_nil_of_le (by omega)]
  exact ⟨hdom, by simp only [verify_data_crc, hdom]⟩

/-- C10 witness: the theorem applied to a concrete Directory entry of size 16
at offset 8 over a 64-byte buffer: the domain is `data[8 : 64+8+16-32]`. -/
theorem dir_negative_slice_domain_witness :
    payloadDomain ⟨0, 0, 8, 16, 3, [], [], []⟩ (List.replicate 64 5) =
      sliceNat (List.replicate 64 5) 8 ((List.replicate 64 5 : List Nat).length + 8 + 16 - 32) ∧
    verify_data_crc ⟨0, 0, 8, 16, 3, [], [], []⟩ (List.replicate 64 5) =
      (crc16 (sliceNat (List.replicate 64 5) 8
        ((List.replicate 64 5 : List Nat).length + 8 + 16 - 32)) ==
          (⟨0, 0, 8, 16, 3, [], [], []⟩ : Entry).dataCRC) :=
  dir_negative_slice_domain ⟨0, 0, 8, 16, 3, [], [], []⟩ (List.replicate 64 5)
    (by decide) (by decide)

/-! Definitional projections of `parse_entry`. -/

theorem parse_entry_headerCRC (s : List Nat) : (parse_entry s).headerCRC = leVal (s.take 2) :=
  rfl

theorem parse_entry_dataCRC (s : List Nat) :
    (parse_entry s).dataCRC = leVal ((s.drop 2).take 2) :=
  rfl

theorem parse_entry_offset (s : List Nat) :
    (parse_entry s).offset = leVal ((s.drop 4).take 4) :=
  rfl

theorem parse_entry_size (s : List Nat) :
    (parse_entry s).size = leVal ((s.drop 8).take 4) :=
  rfl

theorem parse_entry_typeFlag (s : List Nat) :
    (parse_entry s).typeFlag = leVal ((s.drop 12).take 1) :=
  rfl

theorem parse_entry_unknown1 (s : List Nat) :
    (parse_entry s).unknown1 = (s.drop 13).take 3 :=
  rfl

theorem parse_entry_nameField (s : List Nat) :
    (parse_entry s).nameField = (s.drop 16).take 16 :=
  rfl

theorem parse_entry_entryData (s : List Nat) : (parse_entry s).entryData = s.drop 2 :=
  rfl

/-! ## C2: the header-checksum input domain -/

/-- Reading two little-endian bytes and re-serializing gives them back. -/
theorem leVal_inv2 (l : List Nat) (hl : l.length = 2) (hb : ∀ b ∈ l, b < 256) :
    le16 (leVal l) = l := by
  match l, hl with
  | [a, b], _ =>
    have ha : a < 256 := hb a (by simp)
    have hb2 : b < 256 := hb b (by simp)
    simp only [le16, leVal, List.foldr]
    have e1 : (a + 256 * (b + 256 * 0)) % 256 = a := by omega
    have e2 : (a + 256 * (b + 256 * 0)) / 256 % 256 = b := by omega
    rw [e1, e2]

/-- Reading four little-endian bytes and re-serializing gives them back. -/
theorem leVal_inv4 (l : List Nat) (hl : l.length = 4) (hb : ∀ b ∈ l, b < 256) :
    le32 (leVal l) = l := by
  match l, hl with
  | [a, b, c, d], _ =>
    have ha : a < 256 := hb a (by simp)
    have hb2 : b < 256 := hb b (by simp)
    have hc : c < 256 := hb c (by simp)
    have hd : d < 256 := hb d (by simp)
    simp only [le32, leVal, List.foldr]
    have hp2 : (256 : Nat) ^ 2 = 65536 := by norm_num
    have hp3 : (256 : Nat) ^ 3 = 16777216 := by norm_num
    rw [hp2, hp3]
    have e1 : (a + 256 * (b + 256 * (c + 256 * (d + 256 * 0)))) % 256 = a := by omega
    have e2 : (a + 256 * (b + 256 * (c + 256 * (d + 256 * 0)))) / 256 % 256 = b := by omega
    have e3 : (a + 256 * (b + 256 * (c + 256 * (d + 256 * 0)))) / 65536 % 256 = c := by omega
    have e4 : (a + 256 * (b + 256 * (c + 256 * (d + 256 * 0)))) / 16777216 % 256 = d := by
      omega
    rw [e1, e2, e3, e4]

/-- Reading one byte and re-wrapping gives the byte back. -/
theorem leVal_inv1 (l : List Nat) (hl : l.length = 1) : [leVal l] = l := by
  match l, hl with
  | [a], _ =>
    simp [leVal]

/-- A contiguous chunk of a list followed by the rest of the list. -/
theorem drop_chunk (l : List Nat) (a m : Nat) :
    (l.drop a).take m ++ l.drop (a + m) = l.drop a := by
  have h := List.take_append_drop m (l.drop a)
  rwa [List.drop_drop] at h

/-- A 32-byte slot's tail after the header checksum is exactly the
concatenation of the five parsed chunks. -/
theorem slot_decomp (slot : List Nat) (h : slot.length = 32) :
    slot.drop 2 =
      (slot.drop 2).take 2 ++ ((slot.drop 4).take 4 ++ ((slot.drop 8).take 4 ++
        ((slot.drop 12).take 1 ++ ((slot.drop 13).take 3 ++ (slot.drop 16).take 16)))) := by
  have h16 : (slot.drop 16).take 16 = slot.drop 16 := by
    apply List.take_of_length_le
    simp [h]
  have d2 : (slot.drop 2).take 2 ++ slot.drop 4 = slot.drop 2 := by
    simpa using drop_chunk slot 2 2
  have d4 : (slot.drop 4).take 4 ++ slot.drop 8 = slot.drop 4 := by
    simpa using drop_chunk slot 4 4
  have d8 : (slot.drop 8).take 4 ++ slot.drop 12 = slot.drop 8 := by
    simpa using drop_chunk slot 8 4
  have d12 : (slot.drop 12).take 1 ++ slot.drop 13 = slot.drop 12 := by
    simpa using drop_chunk slot 12 1
  have d13 : (slot.drop 13).take 3 ++ slot.drop 16 = slot.drop 13 := by
    simpa using drop_chunk slot 13 3
  conv_rhs => rw [h16, d13, d12, d8, d4, d2]

/-- C2: for every decoded entry (from a 32-byte slot of bytes), `header_ok`
is true if and only if the checksum of the serialization of
payload_checksum, offset, size, kind, marker, name — in that exact byte
order, multi-byte integers little-endian — equals the stored header
checksum. -/
theorem header_ok_iff_field_checksum (slot : List Nat) (hlen : slot.length = 32)
    (hbytes : ∀ b ∈ slot, b < 256) :
    verify_header_crc (parse_entry slot) = true ↔
      crc16 (le16 (parse_entry slot).dataCRC ++ (le32 (parse_entry slot).offset ++
          (le32 (parse_entry slot).size ++ ([(parse_entry slot).typeFlag] ++
          ((parse_entry slot).unknown1 ++ (parse_entry slot).nameField))))) =
        (parse_entry slot).headerCRC := by
  have mem2 : ∀ b ∈ (slot.drop 2).take 2, b < 256 := fun b hb =>
    hbytes b (List.mem_of_mem_drop (List.mem_of_mem_take hb))
  have mem4 : ∀ b ∈ (slot.drop 4).take 4, b < 256 := fun b hb =>
    hbytes b (List.mem_of_mem_drop (List.mem_of_mem_take hb))
  have mem8 : ∀ b ∈ (slot.drop 8).take 4, b < 256 := fun b hb =>
    hbytes b (List.mem_of_mem_drop (List.mem_of_mem_take hb))
  have len2 : ((slot.drop 2).take 2).length = 2 := by
    simp [List.length_take, List.length_drop, hlen]
  have len4 : ((slot.drop 4).take 4).length = 4 := by
    simp [List.length_take, List.length_drop, hlen]
  have len8 : ((slot.drop 8).take 4).length = 4 := by
    simp [List.length_take, List.length_drop, hlen]
  have len12 : ((slot.drop 12).take 1).length = 1 := by
    simp [List.length_take, List.length_drop, hlen]
  simp only [verify_header_crc, parse_entry, beq_iff_eq]
  rw [leVal_inv2 _ len2 mem2, leVal_inv4 _ len4 mem4, leVal_inv4 _ len8 mem8,
    leVal_inv1 _ len12, ← slot_decomp slot hlen]

/-- C2 witness: the equivalence instantiated at the all-zero 32-byte slot. -/
theorem header_ok_iff_field_checksum_witness :
    verify_header_crc (parse_entry (List.replicate 32 0)) = true ↔
      crc16 (le16 (parse_entry (List.replicate 32 0)).dataCRC ++
          (le32 (parse_entry (List.replicate 32 0)).offset ++
          (le32 (parse_entry (List.replicate 32 0)).size ++
          ([(parse_entry (List.replicate 32 0)).typeFlag] ++
          ((parse_entry (List.replicate 32 0)).unknown1 ++
          (parse_entry (List.replicate 32 0)).nameField))))) =
        (parse_entry (List.replicate 32 0)).headerCRC :=
  header_ok_iff_field_checksum (List.replicate 32 0) (by decide) (by decide)

/-! ## C4: the sentinel-terminated scan -/

/-- With no sentinel among the next `n` slots, the scan collects all of them. -/
theorem collectFrom_length_no_sentinel (data : List Nat) (n i : Nat)
    (h : ∀ k, k < n → (parse_entry (slotAt data (i + k))).unknown1 ≠ sentinel) :
    (collectFrom data n i).length = n := by
  induction n generalizing i with
  | zero => rfl
  | succ m ih =>
    have h0 : (parse_entry (slotAt data i)).unknown1 ≠ sentinel := by
      have := h 0 (Nat.succ_pos m)
      simpa using this
    rw [collectFrom, if_neg h0]
    simp only [List.length_cons]
    rw [ih (i + 1) (fun k hk => by
      have := h (k + 1) (by omega)
      rwa [show i + (k + 1) = i + 1 + k by omega] at this)]

/-- With the first sentinel among the next `n` slots at relative index `k`,
the scan collects exactly `k + 1` entries. -/
theorem collectFrom_length_sentinel (data : List Nat) (n i k : Nat)
    (hk : k < n)
    (hsent : (parse_entry (slotAt data (i + k))).unknown1 = sentinel)
    (hfirst : ∀ j, j < k → (parse_entry (slotAt data (i + j))).unknown1 ≠ sentinel) :
    (collectFrom data n i).length = k + 1 := by
  induction n generalizing i k with
  | zero => omega
  | succ m ih =>
    cases k with
    | zero =>
      have h0 : (parse_entry (slotAt data i)).unknown1 = sentinel := by simpa using hsent
      rw [collectFrom, if_pos h0]
      rfl
    | succ k2 =>
      have h0 : (parse_entry (slotAt data i)).unknown1 ≠ sentinel := by
        have := hfirst 0 (Nat.succ_pos k2)
        simpa using this
      rw [collectFrom, if_neg h0]
      simp only [List.length_cons]
      rw [ih (i + 1) k2 (by omega)
        (by rwa [show i + 1 + k2 = i + (k2 + 1) by omega])
        (fun j hj => by
          have := hfirst (j + 1) (by omega)
          rwa [show i + (j + 1) = i + 1 + j by omega] at this)]

/-- Strict UTF-8 validity of a byte sequence (RFC 3629, as enforced by
`bytes.decode('utf-8')` at `soundbox.py:18`): continuation bytes are
`80..BF`, overlong encodings, surrogates `ED A0..` and code points above
U+10FFFF are rejected, as are truncated sequences and stray continuation or
invalid lead bytes. -/
def isValidUtf8 : List Nat → Bool
  | [] => true
  | b :: rest =>
    if b ≤ 0x7F then isValidUtf8 rest
    else if 0xC2 ≤ b && b ≤ 0xDF then
      match rest with
      | c1 :: rest2 => (0x80 ≤ c1 && c1 ≤ 0xBF) && isValidUtf8 rest2
      | [] => false
    else if 0xE0 ≤ b && b ≤ 0xEF then
      match rest with
      | c1 :: c2 :: rest2 =>
        (if b = 0xE0 then 0xA0 ≤ c1 && c1 ≤ 0xBF
         else if b = 0xED then 0x80 ≤ c1 && c1 ≤ 0x9F
         else 0x80 ≤ c1 && c1 ≤ 0xBF) &&
        ((0x80 ≤ c2 && c2 ≤ 0xBF) && isValidUtf8 rest2)
      | _ => false
    else if 0xF0 ≤ b && b ≤ 0xF4 then
      match rest with
      | c1 :: c2 :: c3 :: rest2 =>
        (if b = 0xF0 then 0x90 ≤ c1 && c1 ≤ 0xBF
         else if b = 0xF4 then 0x80 ≤ c1 && c1 ≤ 0x8F
         else 0x80 ≤ c1 && c1 ≤ 0xBF) &&
        ((0x80 ≤ c2 && c2 ≤ 0xBF) && ((0x80 ≤ c3 && c3 ≤ 0xBF) && isValidUtf8 rest2))
      | _ => false
    else false

example : isValidUtf8 [0x74, 0x65, 0x73, 0x74] = true := by decide

example : isValidUtf8 [0xC3, 0xA9] = true := by decide

example : isValidUtf8 [0xE2, 0x82, 0xAC] = true := by decide

example : isValidUtf8 [0xFF] = false := by decide

example : isValidUtf8 [0xED, 0xA0, 0x80] = false := by decide

example : isValidUtf8 [0xC0, 0x80] = false := by decide

/-- The scan loop of `read_bin_file` with the name-decoding error path:
`parse_entry` runs `.decode('utf-8')` on the name bytes before the first NUL
(`soundbox.py:18`) inside the loop, with no handler anywhere, so an invalid
name raises `UnicodeDecodeError` and the whole scan returns nothing. -/
def collectFromE (data : List Nat) : Nat → Nat → Option (List Entry)
  | 0, _ => some []
  | n + 1, i =>
    let e := parse_entry (slotAt data i)
    if isValidUtf8 e.name then
      if e.unknown1 = sentinel then some [e]
      else
        match collectFromE data n (i + 1) with
        | some es => some (e :: es)
        | none => none
    else none

/-- The entries collected by `read_bin_file`, error path included: `none`
models the uncaught `UnicodeDecodeError`. -/
def collectEntriesE (data : List Nat) : Option (List Entry) :=
  collectFromE data (data.length / 32) 0

theorem collectFromE_some_sentinel (data : List Nat) :
    ∀ n i c, c < n →
      (parse_entry (slotAt data (i + c))).unknown1 = sentinel →
      (∀ j, j < c → (parse_entry (slotAt data (i + j))).unknown1 ≠ sentinel) →
      (∀ j, j ≤ c → isValidUtf8 (parse_entry (slotAt data (i + j))).name = true) →
      collectFromE data n i = some (collectFrom data n i) := by
  intro n
  induction n with
  | zero => intro i c hc _ _ _; omega
  | succ m ih =>
    intro i c hc hsent hfirst hvalid
    cases c with
    | zero =>
      have hv0 : isValidUtf8 (parse_entry (slotAt data i)).name = true := by
        simpa using hvalid 0 (Nat.le_refl 0)
      have hs0 : (parse_entry (slotAt data i)).unknown1 = sentinel := by
        simpa using hsent
      rw [collectFromE, collectFrom, if_pos hv0, if_pos hs0, if_pos hs0]
    | succ c2 =>
      have h0 : (parse_entry (slotAt data i)).unknown1 ≠ sentinel := by
        simpa using hfirst 0 (Nat.succ_pos c2)
      have hv0 : isValidUtf8 (parse_entry (slotAt data i)).name = true := by
        simpa using hvalid 0 (Nat.zero_le _)
      rw [collectFromE, collectFrom, if_pos hv0, if_neg h0, if_neg h0,
        ih (i + 1) c2 (by omega)
          (by rwa [show i + 1 + c2 = i + (c2 + 1) from by omega])
          (fun j hj => by
            have := hfirst (j + 1) (by omega)
            rwa [show i + (j + 1) = i + 1 + j from by omega] at this)
          (fun j hj => by
            have := hvalid (j + 1) (by omega)
            rwa [show i + (j + 1) = i + 1 + j from by omega] at this)]

theorem collectFromE_some_no_sentinel (data : List Nat) :
    ∀ n i, (∀ j, j < n → (parse_entry (slotAt data (i + j))).unknown1 ≠ sentinel) →
      (∀ j, j < n → isValidUtf8 (parse_entry (slotAt data (i + j))).name = true) →
      collectFromE data n i = some (collectFrom data n i) := by
  intro n
  induction n with
  | zero => intro i _ _; rfl
  | succ m ih =>
    intro i hfirst hvalid
    have h0 : (parse_entry (slotAt data i)).unknown1 ≠ sentinel := by
      simpa using hfirst 0 (Nat.succ_pos m)
    have hv0 : isValidUtf8 (parse_entry (slotAt data i)).name = true := by
      simpa using hvalid 0 (Nat.succ_pos m)
    rw [collectFromE, collectFrom, if_pos hv0, if_neg h0, if_neg h0,
      ih (i + 1)
        (fun j hj => by
          have := hfirst (j + 1) (by omega)
          rwa [show i + (j + 1) = i + 1 + j from by omega] at this)
        (fun j hj => by
          have := hvalid (j + 1) (by omega)
          rwa [show i + (j + 1) = i + 1 + j from by omega] at this)]

/-- C4 counterexample: on the 32-byte all-`0xFF` buffer the claim demands
exactly `floor(32/32) = 1` entry (its one slot's marker `FF FF FF` is not
the sentinel), but the name field has no NUL and `0xFF` is not a valid
UTF-8 lead byte, so the scan raises at `soundbox.py:18` and returns no
entries at all. -/
theorem decode_count_invalid_name_cex :
    collectEntriesE (List.replicate 32 0xFF) = none ∧
    (List.replicate 32 0xFF : List Nat).length / 32 = 1 ∧
    (parse_entry (slotAt (List.replicate 32 0xFF) 0)).unknown1 ≠ sentinel :=
  ⟨by decide, by decide, by decide⟩

/-- C4 (amended): for every byte buffer in which each scanned slot's
NUL-terminated name bytes are valid UTF-8, decode parses consecutive
32-byte slots from offset 0 and stops right after appending the first entry
whose marker is the sentinel `FF 01 00`: with the first sentinel entry in
slot `k` (0-based), exactly `k + 1` entries are returned regardless of the
remaining slots, and with no sentinel entry, `floor(len(archive)/32)`
entries are returned; on a buffer violating the name condition the scan
instead aborts with no entries. -/
theorem decode_entry_count_valid_names (data : List Nat) :
    (∀ k, k < data.length / 32 →
      (parse_entry (slotAt data k)).unknown1 = sentinel →
      (∀ j, j < k → (parse_entry (slotAt data j)).unknown1 ≠ sentinel) →
      (∀ j, j ≤ k → isValidUtf8 (parse_entry (slotAt data j)).name = true) →
      collectEntriesE data = some (collectEntries data) ∧
      (collectEntries data).length = k + 1) ∧
    ((∀ k, k < data.length / 32 → (parse_entry (slotAt data k)).unknown1 ≠ sentinel) →
      (∀ k, k < data.length / 32 → isValidUtf8 (parse_entry (slotAt data k)).name = true) →
      collectEntriesE data = some (collectEntries data) ∧
      (collectEntries data).length = data.length / 32) := by
  constructor
  · intro k hk hsent hfirst hvalid
    constructor
    · exact collectFromE_some_sentinel data (data.length / 32) 0 k hk
        (by simpa using hsent) (fun j hj => by simpa using hfirst j hj)
        (fun j hj => by simpa using hvalid j hj)
    · exact collectFrom_length_sentinel data (data.length / 32) 0 k hk
        (by simpa using hsent) (fun j hj => by simpa using hfirst j hj)
  · intro h hvalid
    constructor
    · exact collectFromE_some_no_sentinel data (data.length / 32) 0
        (fun k hk => by simpa using h k hk)
        (fun k hk => by simpa using hvalid k hk)
    · exact collectFrom_length_no_sentinel data (data.length / 32) 0
        (fun k hk => by simpa using h k hk)

/-- C4 witness: a 96-byte buffer whose slot 0 carries the sentinel (all
scanned names valid) yields exactly one entry despite two further complete
slots, and a 64-byte sentinel-free buffer with valid names yields two. -/
theorem decode_entry_count_valid_names_witness :
    (collectEntriesE (List.replicate 13 0 ++ [0xFF, 1, 0] ++ List.replicate 80 0) =
      some (collectEntries (List.replicate 13 0 ++ [0xFF, 1, 0] ++ List.replicate 80 0)) ∧
     (collectEntries (List.replicate 13 0 ++ [0xFF, 1, 0] ++ List.replicate 80 0)).length =
       0 + 1) ∧
    (collectEntriesE (List.replicate 64 7) = some (collectEntries (List.replicate 64 7)) ∧
     (collectEntries (List.replicate 64 7)).length =
       (List.replicate 64 7 : List Nat).length / 32) :=
  ⟨(decode_entry_count_valid_names
      (List.replicate 13 0 ++ [0xFF, 1, 0] ++ List.replicate 80 0)).1 0
      (by decide) (by decide) (fun j hj => absurd hj (Nat.not_lt_zero j)) (by decide),
   (decode_entry_count_valid_names (List.replicate 64 7)).2 (by decide) (by decide)⟩

/-! ## C5: all-or-nothing verification -/

/-- The verification loop passes exactly when every entry passes both checks. -/
theorem verifyEntries_eq_true_iff (data : List Nat) (es : List Entry) :
    verifyEntries data es = true ↔
      ∀ e ∈ es, verify_header_crc e = true ∧ verify_data_crc e data = true := by
  induction es with
  | nil => simp [verifyEntries]
  | cons e rest ih =>
    by_cases h : (verify_header_crc e && verify_data_crc e data) = true
    · rw [verifyEntries, if_pos h, ih]
      rw [Bool.and_eq_true] at h
      constructor
      · intro hall f hf
        rcases List.mem_cons.mp hf with rfl | hf2
        · exact h
        · exact hall f hf2
      · intro hall f hf
        exact hall f (List.mem_cons_of_mem e hf)
    · rw [verifyEntries, if_neg h]
      constructor
      · intro hfalse
        exact absurd hfalse (by simp)
      · intro hall
        rw [Bool.and_eq_true] at h
        exact absurd
          ⟨(hall e (List.mem_cons_self e rest)).1, (hall e (List.mem_cons_self e rest)).2⟩ h

/-- Decode returns nothing as soon as any collected entry fails a check. -/
theorem read_bin_file_none_of_bad (data : List Nat) (e : Entry)
    (hmem : e ∈ collectEntries data)
    (hbad : verify_header_crc e = false ∨ verify_data_crc e data = false) :
    read_bin_file data = none := by
  unfold read_bin_file
  rw [if_neg]
  intro hall
  have h := (verifyEntries_eq_true_iff data (collectEntries data)).mp hall e hmem
  rcases hbad with hb | hb
  · rw [h.1] at hb
    exact absurd hb (by simp)
  · rw [h.2] at hb
    exact absurd hb (by simp)

/-- C5: whenever some collected entry fails its header or payload check,
decode aborts fatally: no entry list at all is handed back. -/
theorem decode_aborts_on_bad_entry (data : List Nat) (e : Entry)
    (hmem : e ∈ collectEntries data)
    (hbad : verify_header_crc e = false ∨ verify_data_crc e data = false) :
    read_bin_file data = none :=
  read_bin_file_none_of_bad data e hmem hbad

/-- C5 witness: a single 32-byte slot whose stored header checksum does not
match (byte 2 tampers the payload-checksum field) makes decode return nothing. -/
theorem decode_aborts_on_bad_entry_witness :
    read_bin_file (0 :: 0 :: 1 :: List.replicate 29 0) = none :=
  decode_aborts_on_bad_entry (0 :: 0 :: 1 :: List.replicate 29 0)
    (parse_entry (slotAt (0 :: 0 :: 1 :: List.replicate 29 0) 0))
    (by decide) (Or.inl (by decide))

/-! ## C6: single-bit tamper detection in the header-checksum domain

The CRC engine is linear over bitwise XOR, and the CRC of a message with a
single set bit is never zero, so flipping one bit of the 30-byte header
domain always changes the computed header checksum. -/

theorem xor_shiftLeft_distrib (a b n : Nat) :
    (a ^^^ b) <<< n = (a <<< n) ^^^ (b <<< n) := by
  apply Nat.eq_of_testBit_eq
  intro i
  simp only [Nat.testBit_shiftLeft, Nat.testBit_xor]
  by_cases h : n ≤ i <;> simp [h]

theorem xor_land_distrib (a b m : Nat) :
    (a ^^^ b) &&& m = (a &&& m) ^^^ (b &&& m) := by
  apply Nat.eq_of_testBit_eq
  intro i
  simp only [Nat.testBit_land, Nat.testBit_xor]
  cases hm : m.testBit i <;> cases a.testBit i <;> cases b.testBit i <;> simp

theorem nat_xor_left_comm (a b c : Nat) : a ^^^ (b ^^^ c) = b ^^^ (a ^^^ c) := by
  rw [← Nat.xor_assoc, Nat.xor_comm a b, Nat.xor_assoc]

theorem xor_xor_xor_comm (x y u v : Nat) :
    (x ^^^ y) ^^^ (u ^^^ v) = (x ^^^ u) ^^^ (y ^^^ v) := by
  rw [Nat.xor_assoc, nat_xor_left_comm y u v, ← Nat.xor_assoc]

theorem crc16Poly_xor (a b : Nat) :
    crc16Poly (a ^^^ b) = crc16Poly a ^^^ crc16Poly b := by
  unfold crc16Poly
  cases ha : a.testBit 15 <;> cases hb : b.testBit 15 <;>
    simp [Nat.testBit_xor, ha, hb, Nat.xor_self]

theorem crc16Step_xor (a b : Nat) :
    crc16Step (a ^^^ b) = crc16Step a ^^^ crc16Step b := by
  unfold crc16Step
  rw [crc16Poly_xor, xor_shiftLeft_distrib, ← xor_land_distrib]
  congr 1
  rw [xor_xor_xor_comm]

theorem crc16Step_iterate_xor (n a b : Nat) :
    crc16Step^[n] (a ^^^ b) = crc16Step^[n] a ^^^ crc16Step^[n] b := by
  induction n generalizing a b with
  | zero => rfl
  | succ m ih =>
    rw [Function.iterate_succ_apply, Function.iterate_succ_apply,
      Function.iterate_succ_apply, crc16Step_xor, ih]

theorem crc16Byte_xor (c1 c2 b1 b2 : Nat) :
    crc16Byte (c1 ^^^ c2) (b1 ^^^ b2) = crc16Byte c1 b1 ^^^ crc16Byte c2 b2 := by
  unfold crc16Byte
  rw [xor_shiftLeft_distrib, ← crc16Step_iterate_xor]
  congr 1
  rw [Nat.xor_assoc, nat_xor_left_comm c2 (b1 <<< 8), ← Nat.xor_assoc]

theorem crc16Go_xor (m1 : List Nat) :
    ∀ m2 c1 c2, m1.length = m2.length →
      crc16Go (c1 ^^^ c2) (List.zipWith (fun a b => a ^^^ b) m1 m2) =
        crc16Go c1 m1 ^^^ crc16Go c2 m2 := by
  induction m1 with
  | nil =>
    intro m2 c1 c2 h
    have : m2 = [] := List.eq_nil_of_length_eq_zero h.symm
    subst this
    rfl
  | cons a rest ih =>
    intro m2 c1 c2 h
    match m2, h with
    | b :: rest2, h =>
      rw [List.zipWith_cons_cons, crc16Go_cons, crc16Go_cons, crc16Go_cons,
        crc16Byte_xor]
      exact ih rest2 _ _ (by simpa using h)

/-- CRC linearity: the checksum of the bytewise XOR of two equal-length
messages is the XOR of their checksums. -/
theorem crc16_xor (m1 m2 : List Nat) (h : m1.length = m2.length) :
    crc16 (List.zipWith (fun a b => a ^^^ b) m1 m2) = crc16 m1 ^^^ crc16 m2 := by
  unfold crc16
  have := crc16Go_xor m1 m2 0 0 h
  simpa using this

/-- A message that is zero except for the value `v` at position `p`. -/
def oneAt (len p v : Nat) : List Nat :=
  List.replicate p 0 ++ v :: List.replicate (len - p - 1) 0

theorem crc16Step_zero : crc16Step 0 = 0 := by decide

theorem crc16Byte_zero_byte (c : Nat) : crc16Byte c 0 = crc16Step^[8] c := by
  unfold crc16Byte
  rw [Nat.zero_shiftLeft, Nat.xor_zero]

theorem crc16Go_replicate_zero (t c : Nat) :
    crc16Go c (List.replicate t 0) = crc16Step^[8 * t] c := by
  induction t generalizing c with
  | zero => rfl
  | succ m ih =>
    rw [List.replicate_succ, crc16Go_cons, crc16Byte_zero_byte, ih,
      ← Function.iterate_add_apply, show 8 * m + 8 = 8 * (m + 1) from by ring]

theorem crc16Go_append (c : Nat) (l1 l2 : List Nat) :
    crc16Go c (l1 ++ l2) = crc16Go (crc16Go c l1) l2 := by
  simp [crc16Go_eq_foldl, List.foldl_append]

theorem crc16Step_iterate_pow (j : Nat) (hj : j < 8) :
    crc16Step^[j] 0x100 = 1 <<< (j + 8) := by
  interval_cases j <;> decide

/-- The checksum of a single-bit message, as an orbit point of the register
step: bit `j` of the byte at position `p` in a `len`-byte message. -/
theorem crc16_oneAt (len p j : Nat) (hj : j < 8) :
    crc16 (oneAt len p (1 <<< j)) =
      crc16Step^[8 * (len - p - 1) + (8 + j)] 0x100 := by
  unfold crc16 oneAt
  rw [crc16Go_append, crc16Go_replicate_zero, Function.iterate_fixed crc16Step_zero,
    crc16Go_cons, crc16Go_replicate_zero, Function.iterate_add_apply]
  congr 1
  unfold crc16Byte
  rw [Nat.zero_xor, ← Nat.shiftLeft_add, ← crc16Step_iterate_pow j hj,
    ← Function.iterate_add_apply]

/-- Scan the orbit of `c` under the register step: `true` when the next `n`
iterates are all nonzero. -/
def chkNonzero : Nat → Nat → Bool
  | 0, _ => true
  | n + 1, c => (crc16Step c != 0) && chkNonzero n (crc16Step c)

theorem chkNonzero_spec (n : Nat) :
    ∀ c, chkNonzero n c = true → ∀ k, 1 ≤ k → k ≤ n → crc16Step^[k] c ≠ 0 := by
  induction n with
  | zero => intro c _ k h1 hk; omega
  | succ m ih =>
    intro c h k h1 hk
    rw [chkNonzero, Bool.and_eq_true] at h
    match k, h1 with
    | 1, _ =>
      rw [Function.iterate_one]
      exact bne_iff_ne.mp h.1
    | k2 + 2, _ =>
      rw [Function.iterate_succ_apply]
      exact ih (crc16Step c) h.2 (k2 + 1) (by omega) (by omega)

theorem chkNonzero_247 : chkNonzero 247 0x100 = true := by decide

/-- No single-bit 30-byte message has checksum zero. -/
theorem crc16_oneAt_ne_zero (p j : Nat) (hp : p < 30) (hj : j < 8) :
    crc16 (oneAt 30 p (1 <<< j)) ≠ 0 := by
  rw [crc16_oneAt 30 p j hj]
  exact chkNonzero_spec 247 0x100 chkNonzero_247 _ (by omega) (by omega)

theorem zipWith_xor_replicate_zero (l : List Nat) :
    ∀ n, l.length ≤ n → List.zipWith (fun a b => a ^^^ b) l (List.replicate n 0) = l := by
  induction l with
  | nil => intro n _; simp
  | cons a rest ih =>
    intro n hn
    match n, hn with
    | n2 + 1, hn =>
      rw [List.replicate_succ, List.zipWith_cons_cons, Nat.xor_zero,
        ih n2 (by simpa using hn)]

/-- Setting position `p` to its XOR with `v` is the bytewise XOR with the
single-position message `oneAt`. -/
theorem set_xor_eq_zipWith (d : List Nat) (p v : Nat) (hp : p < d.length) :
    d.set p (d.getD p 0 ^^^ v) =
      List.zipWith (fun a b => a ^^^ b) d (oneAt d.length p v) := by
  induction d generalizing p with
  | nil => simp at hp
  | cons a rest ih =>
    cases p with
    | zero =>
      unfold oneAt
      rw [List.getD_cons_zero]
      simp only [List.replicate, List.nil_append, List.zipWith_cons_cons, List.set_cons_zero]
      congr 1
      rw [zipWith_xor_replicate_zero rest _ (by simp)]
    | succ p2 =>
      unfold oneAt
      rw [List.getD_cons_succ, List.replicate_succ]
      simp only [List.cons_append, List.zipWith_cons_cons, Nat.xor_zero, List.set_cons_succ]
      congr 1
      have hlen : (a :: rest).length - (p2 + 1) - 1 = rest.length - p2 - 1 := by
        simp
      rw [hlen]
      exact ih p2 (by simpa using hp)

/-- Flipping bit `j` of byte `p` of a 30-byte message changes its checksum. -/
theorem crc16_set_flip_ne (d : List Nat) (p j : Nat) (hp : p < d.length)
    (hlen : d.length = 30) (hj : j < 8) :
    crc16 (d.set p (d.getD p 0 ^^^ (1 <<< j))) ≠ crc16 d := by
  rw [set_xor_eq_zipWith d p _ hp, hlen]
  rw [crc16_xor d (oneAt 30 p (1 <<< j))
    (by simp [oneAt, List.length_replicate, List.length_append]; omega)]
  intro heq
  apply crc16_oneAt_ne_zero p j (by omega) hj
  calc crc16 (oneAt 30 p (1 <<< j))
      = crc16 d ^^^ (crc16 d ^^^ crc16 (oneAt 30 p (1 <<< j))) := by
        rw [← Nat.xor_assoc, Nat.xor_self, Nat.zero_xor]
    _ = crc16 d ^^^ crc16 d := by rw [heq]
    _ = 0 := Nat.xor_self _

/-! Slot-level facts about `List.set`. -/

theorem drop_set_add (l : List Nat) (m i : Nat) (a : Nat) :
    (l.set (m + i) a).drop m = (l.drop m).set i a := by
  apply List.ext_getElem?
  intro k
  rw [List.getElem?_drop, List.getElem?_set, List.getElem?_set, List.getElem?_drop,
    List.length_drop]
  by_cases h : i = k
  · subst h
    rw [if_pos rfl, if_pos rfl]
    by_cases hlen : m + i < l.length
    · rw [if_pos hlen, if_pos (by omega)]
    · rw [if_neg hlen, if_neg (by omega)]
  · rw [if_neg (by omega), if_neg h]

theorem take_set_ge (l : List Nat) (m n a : Nat) (h : m ≤ n) :
    (l.set n a).take m = l.take m := by
  apply List.ext_getElem?
  intro k
  rw [List.getElem?_take, List.getElem?_take]
  split
  · next hk => rw [List.getElem?_set_ne (by omega)]
  · rfl

theorem take_set_comm (l : List Nat) (t i v : Nat) :
    (l.set i v).take t = (l.take t).set i v := by
  apply List.ext_getElem?
  intro k
  simp only [List.getElem?_take, List.getElem?_set, List.length_take, List.length_set]
  split_ifs <;> first | rfl | omega

theorem getD_drop_zero (l : List Nat) (m i : Nat) :
    (l.drop m).getD i 0 = l.getD (m + i) 0 := by
  rw [List.getD_eq_getElem?_getD, List.getD_eq_getElem?_getD, List.getElem?_drop]

theorem getD_slotAt (data : List Nat) (k i : Nat) (hi : i < 32) :
    (slotAt data k).getD i 0 = data.getD (32 * k + i) 0 := by
  unfold slotAt
  rw [List.getD_eq_getElem?_getD, List.getD_eq_getElem?_getD, List.getElem?_take,
    if_pos hi, List.getElem?_drop]

/-- Tampering inside slot `k` tampers exactly the corresponding byte of
that slot. -/
theorem slotAt_set_same (data : List Nat) (k i v : Nat) (hi : i < 32) :
    slotAt (data.set (32 * k + i) v) k = (slotAt data k).set i v := by
  unfold slotAt
  rw [drop_set_add data (32 * k) i v, take_set_comm]

/-- Tampering at a byte position past slot `m` leaves slot `m` unchanged. -/
theorem slotAt_set_earlier (data : List Nat) (m p v : Nat) (hp : 32 * m + 32 ≤ p) :
    slotAt (data.set p v) m = slotAt data m := by
  unfold slotAt
  rw [show p = 32 * m + (p - 32 * m) from by omega, drop_set_add,
    take_set_ge _ _ _ _ (by omega)]

/-- The entry of slot `i + k` is collected whenever no earlier slot from `i`
carries the sentinel and `k` more slots are in range. -/
theorem mem_collectFrom (data : List Nat) :
    ∀ n i k, k < n →
      (∀ j, j < k → (parse_entry (slotAt data (i + j))).unknown1 ≠ sentinel) →
      parse_entry (slotAt data (i + k)) ∈ collectFrom data n i := by
  intro n
  induction n with
  | zero => intro i k hk _; omega
  | succ m ih =>
    intro i k hk hfirst
    cases k with
    | zero =>
      by_cases h0 : (parse_entry (slotAt data i)).unknown1 = sentinel
      · rw [collectFrom, if_pos h0]
        simpa using List.mem_singleton_self _
      · rw [collectFrom, if_neg h0]
        simpa using List.mem_cons_self _ _
    | succ k2 =>
      have h0 : (parse_entry (slotAt data i)).unknown1 ≠ sentinel := by
        have := hfirst 0 (Nat.succ_pos k2)
        simpa using this
      rw [collectFrom, if_neg h0]
      apply List.mem_cons_of_mem
      have := ih (i + 1) k2 (by omega) (fun j hj => by
        have := hfirst (j + 1) (by omega)
        rwa [show i + (j + 1) = i + 1 + j from by omega] at this)
      rwa [show i + 1 + k2 = i + (k2 + 1) from by omega] at this

/-- C6: flipping any single bit inside the 30-byte header-checksum domain of
an entry that decodes with `header_ok` true (byte `i` of its slot, `2 ≤ i`,
leaving the stored header checksum untouched) makes `header_ok` false for
that entry, and decode of the tampered archive aborts with no result. -/
theorem header_tamper_detected (archive : List Nat) (k i j : Nat)
    (hk : 32 * k + 32 ≤ archive.length)
    (hfirst : ∀ m, m < k → (parse_entry (slotAt archive m)).unknown1 ≠ sentinel)
    (hok : verify_header_crc (parse_entry (slotAt archive k)) = true)
    (hi2 : 2 ≤ i) (hi : i < 32) (hj : j < 8) :
    verify_header_crc (parse_entry (slotAt (flipBitAt archive (32 * k + i) j) k)) = false ∧
    read_bin_file (flipBitAt archive (32 * k + i) j) = none := by
  have hslotlen : (slotAt archive k).length = 32 := by
    simp only [slotAt, List.length_take, List.length_drop]
    omega
  have hslot : slotAt (flipBitAt archive (32 * k + i) j) k =
      (slotAt archive k).set i ((slotAt archive k).getD i 0 ^^^ (1 <<< j)) := by
    unfold flipBitAt
    rw [slotAt_set_same archive k i _ hi, getD_slotAt archive k i hi]
  have hdata : ((slotAt archive k).set i ((slotAt archive k).getD i 0 ^^^ (1 <<< j))).drop 2 =
      ((slotAt archive k).drop 2).set (i - 2)
        (((slotAt archive k).drop 2).getD (i - 2) 0 ^^^ (1 <<< j)) := by
    rw [getD_drop_zero, show 2 + (i - 2) = i from by omega,
      show (slotAt archive k).set i ((slotAt archive k).getD i 0 ^^^ 1 <<< j) =
        (slotAt archive k).set (2 + (i - 2)) ((slotAt archive k).getD i 0 ^^^ 1 <<< j) from by
          rw [show 2 + (i - 2) = i from by omega],
      drop_set_add]
  have hhead : ((slotAt archive k).set i ((slotAt archive k).getD i 0 ^^^ (1 <<< j))).take 2 =
      (slotAt archive k).take 2 :=
    take_set_ge _ 2 i _ hi2
  have hcrcne : crc16 (((slotAt archive k).set i
      ((slotAt archive k).getD i 0 ^^^ (1 <<< j))).drop 2) ≠
      crc16 ((slotAt archive k).drop 2) := by
    rw [hdata]
    exact crc16_set_flip_ne ((slotAt archive k).drop 2) (i - 2) j
      (by simp [List.length_drop, hslotlen]; omega)
      (by simp [List.length_drop, hslotlen]) hj
  have hokeq : crc16 ((slotAt archive k).drop 2) = leVal ((slotAt archive k).take 2) := by
    have h := hok
    unfold verify_header_crc at h
    rw [parse_entry_entryData, parse_entry_headerCRC, beq_iff_eq] at h
    exact h
  have hfails : verify_header_crc (parse_entry (slotAt (flipBitAt archive (32 * k + i) j) k)) =
      false := by
    rw [hslot]
    unfold verify_header_crc
    rw [parse_entry_entryData, parse_entry_headerCRC, hhead, beq_eq_false_iff_ne, ← hokeq]
    exact hcrcne
  have hlenfb : (flipBitAt archive (32 * k + i) j).length = archive.length := by
    unfold flipBitAt
    rw [List.length_set]
  have hkdiv : k < (flipBitAt archive (32 * k + i) j).length / 32 := by
    rw [hlenfb]
    have h1 : k + 1 ≤ archive.length / 32 :=
      (Nat.le_div_iff_mul_le (by norm_num)).mpr (by omega)
    omega
  have hfirstfb : ∀ m, m < k →
      (parse_entry (slotAt (flipBitAt archive (32 * k + i) j) m)).unknown1 ≠ sentinel := by
    intro m hm
    unfold flipBitAt
    rw [slotAt_set_earlier archive m (32 * k + i) _ (by omega)]
    exact hfirst m hm
  have hmem : parse_entry (slotAt (flipBitAt archive (32 * k + i) j) k) ∈
      collectEntries (flipBitAt archive (32 * k + i) j) := by
    have h := mem_collectFrom (flipBitAt archive (32 * k + i) j)
      ((flipBitAt archive (32 * k + i) j).length / 32) 0 k hkdiv
      (fun m hm => by simpa using hfirstfb m hm)
    simpa using h
  exact ⟨hfails, read_bin_file_none_of_bad _ _ hmem (Or.inl hfails)⟩

/-- C6 witness: the all-zero 32-byte slot verifies (the checksum of 30 zero
bytes is zero); flipping bit 0 of byte 2 makes its header check fail and
decode abort. -/
theorem header_tamper_detected_witness :
    verify_header_crc
      (parse_entry (slotAt (flipBitAt (List.replicate 32 0) (32 * 0 + 2) 0) 0)) = false ∧
    read_bin_file (flipBitAt (List.replicate 32 0) (32 * 0 + 2) 0) = none :=
  header_tamper_detected (List.replicate 32 0) 0 2 0 (by decide)
    (fun m hm => absurd hm (Nat.not_lt_zero m)) (by decide) (by decide) (by decide) (by decide)

/-! ## Encode-side groundwork: packed entries parse back to their fields -/

theorem crc16Step_lt (c : Nat) : crc16Step c < 65536 := by
  unfold crc16Step
  have h : ((c <<< 1) ^^^ crc16Poly c) &&& 0xFFFF < 2 ^ 16 :=
    Nat.and_lt_two_pow _ (by norm_num)
  simpa using h

theorem crc16Byte_lt (c b : Nat) : crc16Byte c b < 65536 := by
  unfold crc16Byte
  rw [show (8 : Nat) = 7 + 1 from rfl, Function.iterate_succ_apply']
  exact crc16Step_lt _

theorem crc16Go_lt (m : List Nat) : ∀ c, c < 65536 → crc16Go c m < 65536 := by
  induction m with
  | nil => intro c hc; exact hc
  | cons b rest ih =>
    intro c hc
    rw [crc16Go_cons]
    exact ih _ (crc16Byte_lt c b)

theorem crc16_lt (m : List Nat) : crc16 m < 65536 :=
  crc16Go_lt m 0 (by norm_num)

theorem leVal_le16 (v : Nat) (hv : v < 65536) : leVal (le16 v) = v := by
  simp only [le16, leVal, List.foldr]
  omega

theorem leVal_le32 (v : Nat) (hv : v < 4294967296) : leVal (le32 v) = v := by
  simp only [le32, leVal, List.foldr]
  have hp2 : (256 : Nat) ^ 2 = 65536 := by norm_num
  have hp3 : (256 : Nat) ^ 3 = 16777216 := by norm_num
  rw [hp2, hp3]
  omega

theorem leVal_single (t : Nat) : leVal [t] = t := by
  simp [leVal]

theorem ljustName_length (nm : List Nat) : (ljustName nm).length = 16 := by
  simp only [ljustName, List.length_take, List.length_append, List.length_replicate]
  omega

theorem mkEntryBytes_length (d o s t : Nat) (u n16 : List Nat)
    (hu : u.length = 3) (hn : n16.length = 16) :
    (mkEntryBytes d o s t u n16).length = 32 := by
  simp [mkEntryBytes, le16, le32, hu, hn]

/-- Parsing a packed entry recovers its fields (32-bit fields within range). -/
theorem parse_mkEntryBytes (d o s t : Nat) (u n16 : List Nat)
    (hd : d < 65536) (ho : o < 4294967296) (hs : s < 4294967296)
    (hu : u.length = 3) (hn : n16.length = 16) :
    parse_entry (mkEntryBytes d o s t u n16) =
      { headerCRC := crc16 (le16 d ++ (le32 o ++ (le32 s ++ ([t] ++ (u ++ n16)))))
        dataCRC := d
        offset := o
        size := s
        typeFlag := t
        unknown1 := u
        nameField := n16
        entryData := le16 d ++ (le32 o ++ (le32 s ++ ([t] ++ (u ++ n16)))) } := by
  have htake2 : (mkEntryBytes d o s t u n16).take 2 =
      le16 (crc16 (le16 d ++ (le32 o ++ (le32 s ++ ([t] ++ (u ++ n16)))))) := by
    unfold mkEntryBytes
    exact List.take_left' rfl
  have hdrop2 : (mkEntryBytes d o s t u n16).drop 2 =
      le16 d ++ (le32 o ++ (le32 s ++ ([t] ++ (u ++ n16)))) := by
    unfold mkEntryBytes
    exact List.drop_left' rfl
  have hdrop4 : (mkEntryBytes d o s t u n16).drop 4 =
      le32 o ++ (le32 s ++ ([t] ++ (u ++ n16))) := by
    rw [show (4 : Nat) = 2 + 2 from rfl, ← List.drop_drop, hdrop2]
    exact List.drop_left' rfl
  have hdrop8 : (mkEntryBytes d o s t u n16).drop 8 =
      le32 s ++ ([t] ++ (u ++ n16)) := by
    rw [show (8 : Nat) = 4 + 4 from rfl, ← List.drop_drop, hdrop4]
    exact List.drop_left' rfl
  have hdrop12 : (mkEntryBytes d o s t u n16).drop 12 = [t] ++ (u ++ n16) := by
    rw [show (12 : Nat) = 8 + 4 from rfl, ← List.drop_drop, hdrop8]
    exact List.drop_left' rfl
  have hdrop13 : (mkEntryBytes d o s t u n16).drop 13 = u ++ n16 := by
    rw [show (13 : Nat) = 12 + 1 from rfl, ← List.drop_drop, hdrop12]
    exact List.drop_left' rfl
  have hdrop16 : (mkEntryBytes d o s t u n16).drop 16 = n16 := by
    rw [show (16 : Nat) = 13 + 3 from rfl, ← List.drop_drop, hdrop13]
    exact List.drop_left' hu
  have ht16a : List.take 2 (le16 d ++ (le32 o ++ (le32 s ++ ([t] ++ (u ++ n16))))) = le16 d :=
    List.take_left' rfl
  have ht32o : List.take 4 (le32 o ++ (le32 s ++ ([t] ++ (u ++ n16)))) = le32 o :=
    List.take_left' rfl
  have ht32s : List.take 4 (le32 s ++ ([t] ++ (u ++ n16))) = le32 s :=
    List.take_left' rfl
  have htt : List.take 1 ([t] ++ (u ++ n16)) = [t] :=
    List.take_left' rfl
  have htu : List.take 3 (u ++ n16) = u :=
    List.take_left' hu
  have htn : List.take 16 n16 = n16 :=
    List.take_of_length_le (by omega)
  unfold parse_entry
  simp only [Entry.mk.injEq]
  refine ⟨?_, ?_, ?_, ?_, ?_, ?_, ?_, ?_⟩
  · rw [htake2, leVal_le16 _ (crc16_lt _)]
  · rw [hdrop2, ht16a, leVal_le16 _ hd]
  · rw [hdrop4, ht32o, leVal_le32 _ ho]
  · rw [hdrop8, ht32s, leVal_le32 _ hs]
  · rw [hdrop12, htt, leVal_single]
  · rw [hdrop13, htu]
  · rw [hdrop16, htn]
  · exact hdrop2

/-- The padded payload length contributed by one file. -/
def plen (f : List Nat × List Nat) : Nat := (pad_to_multiple_of_16 f.2).length

/-- Total padded payload length of a file list. -/
def psum (files : List (List Nat × List Nat)) : Nat := (files.map plen).sum

theorem psum_cons (f : List Nat × List Nat) (rest : List (List Nat × List Nat)) :
    psum (f :: rest) = plen f + psum rest := by
  simp [psum]

theorem packEntries_cons (nm ct : List Nat) (rest : List (List Nat × List Nat)) (offset : Nat) :
    packEntries ((nm, ct) :: rest) offset =
      (mkEntryBytes (crc16 ct) offset ct.length 0x02
          (if rest = [] then [0xFF, 0x01, 0x00] else [0xFF, 0x00, 0x00]) (ljustName nm) ::
        (packEntries rest (offset + plen (nm, ct))).1,
       pad_to_multiple_of_16 ct ++ (packEntries rest (offset + plen (nm, ct))).2.1,
       (packEntries rest (offset + plen (nm, ct))).2.2) :=
  rfl

theorem packEntries_length (files : List (List Nat × List Nat)) :
    ∀ offset, (packEntries files offset).1.length = files.length := by
  induction files with
  | nil => intro offset; rfl
  | cons f rest ih =>
    intro offset
    cases f with
    | mk nm ct =>
      rw [packEntries_cons, List.length_cons, ih, List.length_cons]

theorem packEntries_binary (files : List (List Nat × List Nat)) :
    ∀ offset, (packEntries files offset).2.1 =
      (files.map (fun f => pad_to_multiple_of_16 f.2)).flatten := by
  induction files with
  | nil => intro offset; rfl
  | cons f rest ih =>
    intro offset
    cases f with
    | mk nm ct =>
      rw [packEntries_cons, List.map_cons, List.flatten_cons, ih]

theorem packEntries_final (files : List (List Nat × List Nat)) :
    ∀ offset, (packEntries files offset).2.2 = offset + psum files := by
  induction files with
  | nil => intro offset; simp [packEntries, psum]
  | cons f rest ih =>
    intro offset
    cases f with
    | mk nm ct =>
      rw [packEntries_cons, ih, psum_cons]
      omega

theorem packEntries_blocks (files : List (List Nat × List Nat)) :
    ∀ offset, ∀ e ∈ (packEntries files offset).1, e.length = 32 := by
  induction files with
  | nil => intro offset e he; simp [packEntries] at he
  | cons f rest ih =>
    intro offset e he
    cases f with
    | mk nm ct =>
      rw [packEntries_cons] at he
      rcases List.mem_cons.mp he with rfl | h2
      · exact mkEntryBytes_length _ _ _ _ _ _ (by split <;> rfl) (ljustName_length nm)
      · exact ih _ e h2

theorem packEntries_getD (files : List (List Nat × List Nat)) :
    ∀ offset i, i < files.length →
      (packEntries files offset).1.getD i [] =
        mkEntryBytes (crc16 (files.getD i ([], [])).2)
          (offset + psum (files.take i))
          (files.getD i ([], [])).2.length 0x02
          (if i + 1 = files.length then [0xFF, 0x01, 0x00] else [0xFF, 0x00, 0x00])
          (ljustName (files.getD i ([], [])).1) := by
  induction files with
  | nil => intro offset i hi; simp at hi
  | cons f rest ih =>
    intro offset i hi
    cases f with
    | mk nm ct =>
      rw [packEntries_cons]
      cases i with
      | zero =>
        rw [List.getD_cons_zero, List.getD_cons_zero]
        have hcond : (0 + 1 = (( (nm, ct) :: rest : List (List Nat × List Nat))).length) ↔
            rest = [] := by
          simp [List.length_cons, List.length_eq_zero, eq_comm]
        by_cases hr : rest = []
        · rw [if_pos hr, if_pos (hcond.mpr hr)]
          simp [psum]
        · rw [if_neg hr, if_neg (fun h => hr (hcond.mp h))]
          simp [psum]
      | succ i2 =>
        rw [List.getD_cons_succ, List.getD_cons_succ,
          ih (offset + plen (nm, ct)) i2 (by simpa using hi)]
        have hsum : offset + plen (nm, ct) + psum (rest.take i2) =
            offset + psum (((nm, ct) :: rest : List (List Nat × List Nat)).take (i2 + 1)) := by
          rw [List.take_succ_cons, psum_cons]
          omega
        rw [hsum]
        have hcond2 : (i2 + 1 = rest.length) ↔
            (i2 + 1 + 1 = (((nm, ct) :: rest : List (List Nat × List Nat))).length) := by
          simp [List.length_cons]
        by_cases hc : i2 + 1 = rest.length
        · rw [if_pos hc, if_pos (hcond2.mp hc)]
        · rw [if_neg hc, if_neg (fun h => hc (hcond2.mpr h))]

/-! Slices of the packed payload region. -/

theorem sliceNat_append_right (X Y : List Nat) (a b : Nat) :
    sliceNat (X ++ Y) (X.length + a) (X.length + b) = sliceNat Y a b := by
  unfold sliceNat
  rw [List.take_append, List.drop_append]

theorem sliceNat_front (X Y : List Nat) (s : Nat) (hs : s ≤ X.length) :
    sliceNat (X ++ Y) 0 s = X.take s := by
  unfold sliceNat
  rw [List.drop_zero, List.take_append_of_le_length hs]

theorem pad_length_ge (ct : List Nat) : ct.length ≤ (pad_to_multiple_of_16 ct).length := by
  simp [pad_to_multiple_of_16]

theorem pad_take (ct : List Nat) : (pad_to_multiple_of_16 ct).take ct.length = ct := by
  unfold pad_to_multiple_of_16
  exact List.take_left' rfl

/-- The slice of the packed payload region holding file `i`'s unpadded bytes. -/
theorem flatten_padded_slice (files : List (List Nat × List Nat)) :
    ∀ i, i < files.length →
      sliceNat ((files.map (fun f => pad_to_multiple_of_16 f.2)).flatten)
          (psum (files.take i)) (psum (files.take i) + (files.getD i ([], [])).2.length) =
        (files.getD i ([], [])).2 := by
  induction files with
  | nil => intro i hi; simp at hi
  | cons f rest ih =>
    intro i hi
    rw [List.map_cons, List.flatten_cons]
    cases i with
    | zero =>
      rw [List.getD_cons_zero, List.take_zero]
      have h0 : psum ([] : List (List Nat × List Nat)) = 0 := rfl
      rw [h0, Nat.zero_add]
      rw [sliceNat_front _ _ _ (pad_length_ge f.2), pad_take]
    | succ i2 =>
      rw [List.getD_cons_succ, List.take_succ_cons, psum_cons]
      have hshift : plen f + psum (rest.take i2) = (pad_to_multiple_of_16 f.2).length +
          psum (rest.take i2) := by
        rfl
      rw [hshift, show (pad_to_multiple_of_16 f.2).length + psum (rest.take i2) +
            (rest.getD i2 ([], [])).2.length =
          (pad_to_multiple_of_16 f.2).length + (psum (rest.take i2) +
            (rest.getD i2 ([], [])).2.length) from by omega,
        sliceNat_append_right]
      exact ih i2 (by simpa using hi)

/-- Slot `i` of a buffer made of 32-byte blocks followed by a tail. -/
theorem slotAt_flatten (blocks : List (List Nat)) :
    ∀ (tail : List Nat), (∀ b ∈ blocks, b.length = 32) →
      ∀ i, i < blocks.length → slotAt (blocks.flatten ++ tail) i = blocks.getD i [] := by
  induction blocks with
  | nil => intro tail _ i hi; simp at hi
  | cons b bs ih =>
    intro tail h i hi
    rw [List.flatten_cons, List.append_assoc]
    have hb := h b (List.mem_cons_self b bs)
    cases i with
    | zero =>
      rw [List.getD_cons_zero]
      unfold slotAt
      rw [Nat.mul_zero, List.drop_zero]
      exact List.take_left' hb
    | succ i2 =>
      rw [List.getD_cons_succ]
      have step : slotAt (b ++ (bs.flatten ++ tail)) (i2 + 1) =
          slotAt (bs.flatten ++ tail) i2 := by
        unfold slotAt
        rw [show 32 * (i2 + 1) = b.length + 32 * i2 from by rw [hb]; ring, List.drop_append]
      rw [step]
      exact ih tail (fun x hx => h x (List.mem_cons_of_mem b hx)) i2 (by simpa using hi)

/-! The scan as a map over slot indices. -/

theorem collectFrom_map_sentinel (data : List Nat) :
    ∀ n i c, c < n →
      (parse_entry (slotAt data (i + c))).unknown1 = sentinel →
      (∀ j, j < c → (parse_entry (slotAt data (i + j))).unknown1 ≠ sentinel) →
      collectFrom data n i =
        (List.range (c + 1)).map (fun j => parse_entry (slotAt data (i + j))) := by
  intro n
  induction n with
  | zero => intro i c hc _ _; omega
  | succ m ih =>
    intro i c hc hsent hfirst
    cases c with
    | zero =>
      rw [collectFrom, if_pos (by simpa using hsent)]
      rw [List.range_succ_eq_map, List.range_zero, List.map_nil, List.map_cons, List.map_nil,
        Nat.add_zero]
    | succ c2 =>
      rw [collectFrom, if_neg (by simpa using hfirst 0 (Nat.succ_pos c2))]
      rw [ih (i + 1) c2 (by omega)
        (by rwa [show i + 1 + c2 = i + (c2 + 1) from by omega])
        (fun j hj => by
          have := hfirst (j + 1) (by omega)
          rwa [show i + (j + 1) = i + 1 + j from by omega] at this)]
      conv_rhs => rw [List.range_succ_eq_map, List.map_cons, List.map_map]
      congr 1
      apply List.map_congr_left
      intro j hj
      simp only [Function.comp_apply]
      congr 2
      omega

theorem collectFrom_map_no_sentinel (data : List Nat) :
    ∀ n i, (∀ j, j < n → (parse_entry (slotAt data (i + j))).unknown1 ≠ sentinel) →
      collectFrom data n i =
        (List.range n).map (fun j => parse_entry (slotAt data (i + j))) := by
  intro n
  induction n with
  | zero => intro i _; rfl
  | succ m ih =>
    intro i hfirst
    rw [collectFrom, if_neg (by simpa using hfirst 0 (Nat.succ_pos m))]
    rw [ih (i + 1) (fun j hj => by
      have := hfirst (j + 1) (by omega)
      rwa [show i + (j + 1) = i + 1 + j from by omega] at this)]
    conv_rhs => rw [List.range_succ_eq_map, List.map_cons, List.map_map]
    congr 1
    apply List.map_congr_left
    intro j hj
    simp only [Function.comp_apply]
    congr 2
    omega

/-! ## The packed archive: blocks, lengths, and the decoded entry list -/

/-- The `N + 1` header slots written by `pack_files`: the synthesized
directory entry first, then the file entries. -/
def packBlocks (files : List (List Nat × List Nat)) : List (List Nat) :=
  mkEntryBytes
      (crc16 ((packEntries files (32 * (files.length + 1))).1.flatten ++
        (packEntries files (32 * (files.length + 1))).2.1))
      0x20 ((packEntries files (32 * (files.length + 1))).2.2) 0x03 [0xFF, 0x00, 0x00]
      (ljustName testDirName) ::
    (packEntries files (32 * (files.length + 1))).1

theorem pack_files_eq (files : List (List Nat × List Nat)) :
    pack_files files =
      (packBlocks files).flatten ++ (packEntries files (32 * (files.length + 1))).2.1 :=
  rfl

theorem flatten_length_32 (blocks : List (List Nat)) (h : ∀ b ∈ blocks, b.length = 32) :
    blocks.flatten.length = 32 * blocks.length := by
  induction blocks with
  | nil => rfl
  | cons b bs ih =>
    rw [List.flatten_cons, List.length_append, List.length_cons,
      h b (List.mem_cons_self b bs), ih (fun x hx => h x (List.mem_cons_of_mem b hx))]
    ring

theorem binary_length (files : List (List Nat × List Nat)) (offset : Nat) :
    (packEntries files offset).2.1.length = psum files := by
  rw [packEntries_binary, List.length_flatten, List.map_map]
  unfold psum
  congr 1

theorem packBlocks_lengths (files : List (List Nat × List Nat)) :
    ∀ b ∈ packBlocks files, b.length = 32 := by
  intro b hb
  rcases List.mem_cons.mp hb with rfl | h2
  · exact mkEntryBytes_length _ _ _ _ _ _ rfl (ljustName_length testDirName)
  · exact packEntries_blocks files _ b h2

theorem packBlocks_length (files : List (List Nat × List Nat)) :
    (packBlocks files).length = files.length + 1 := by
  unfold packBlocks
  rw [List.length_cons, packEntries_length]

theorem pack_files_length (files : List (List Nat × List Nat)) :
    (pack_files files).length = 32 * (files.length + 1) + psum files := by
  rw [pack_files_eq, List.length_append, flatten_length_32 _ (packBlocks_lengths files),
    packBlocks_length, binary_length]

theorem packBlocks_getD_zero (files : List (List Nat × List Nat)) :
    (packBlocks files).getD 0 [] =
      mkEntryBytes
        (crc16 ((packEntries files (32 * (files.length + 1))).1.flatten ++
          (packEntries files (32 * (files.length + 1))).2.1))
        0x20 ((packEntries files (32 * (files.length + 1))).2.2) 0x03 [0xFF, 0x00, 0x00]
        (ljustName testDirName) :=
  rfl

theorem packBlocks_getD_succ (files : List (List Nat × List Nat)) (i : Nat) :
    (packBlocks files).getD (i + 1) [] =
      (packEntries files (32 * (files.length + 1))).1.getD i [] :=
  rfl

theorem mkEntryBytes_drop13 (d o s t : Nat) (u n16 : List Nat) :
    (mkEntryBytes d o s t u n16).drop 13 = u ++ n16 := by
  have hdrop2 : (mkEntryBytes d o s t u n16).drop 2 =
      le16 d ++ (le32 o ++ (le32 s ++ ([t] ++ (u ++ n16)))) := by
    unfold mkEntryBytes
    exact List.drop_left' rfl
  have hdrop4 : (mkEntryBytes d o s t u n16).drop 4 =
      le32 o ++ (le32 s ++ ([t] ++ (u ++ n16))) := by
    rw [show (4 : Nat) = 2 + 2 from rfl, ← List.drop_drop, hdrop2]
    exact List.drop_left' rfl
  have hdrop8 : (mkEntryBytes d o s t u n16).drop 8 = le32 s ++ ([t] ++ (u ++ n16)) := by
    rw [show (8 : Nat) = 4 + 4 from rfl, ← List.drop_drop, hdrop4]
    exact List.drop_left' rfl
  have hdrop12 : (mkEntryBytes d o s t u n16).drop 12 = [t] ++ (u ++ n16) := by
    rw [show (12 : Nat) = 8 + 4 from rfl, ← List.drop_drop, hdrop8]
    exact List.drop_left' rfl
  rw [show (13 : Nat) = 12 + 1 from rfl, ← List.drop_drop, hdrop12]
  exact List.drop_left' rfl

/-- The marker of a packed entry, independent of any field-range hypotheses. -/
theorem parse_mkEntryBytes_unknown1 (d o s t : Nat) (u n16 : List Nat) (hu : u.length = 3) :
    (parse_entry (mkEntryBytes d o s t u n16)).unknown1 = u := by
  rw [parse_entry_unknown1, mkEntryBytes_drop13]
  exact List.take_left' hu

theorem range_map_to_blocks (data : List Nat) (blocks : List (List Nat)) (c : Nat)
    (hc : blocks.length = c)
    (hs : ∀ i, i < c → slotAt data i = blocks.getD i []) :
    (List.range c).map (fun j => parse_entry (slotAt data (0 + j))) =
      blocks.map parse_entry := by
  apply List.ext_getElem
  · simp [hc]
  · intro i h1 h2
    simp only [List.getElem_map, List.getElem_range, Nat.zero_add]
    have hi : i < blocks.length := by simpa using h2
    rw [hs i (by omega)]
    congr 1
    rw [List.getD_eq_getElem?_getD, List.getElem?_eq_getElem hi]
    rfl

/-- Decoding the packed archive collects exactly the `N + 1` written header
slots, in order. -/
theorem collect_pack (files : List (List Nat × List Nat)) :
    collectEntries (pack_files files) = (packBlocks files).map parse_entry := by
  have hblocks := packBlocks_lengths files
  have hblen := packBlocks_length files
  have hplen := pack_files_length files
  have hslot : ∀ i, i < files.length + 1 →
      slotAt (pack_files files) i = (packBlocks files).getD i [] := by
    intro i hi
    rw [pack_files_eq]
    exact slotAt_flatten _ _ hblocks i (by rw [hblen]; omega)
  have hnum : (pack_files files).length / 32 = files.length + 1 + psum files / 32 := by
    omega
  have hdir_marker :
      (parse_entry ((packBlocks files).getD 0 [])).unknown1 = [0xFF, 0x00, 0x00] := by
    rw [packBlocks_getD_zero]
    exact parse_mkEntryBytes_unknown1 _ _ _ _ _ _ rfl
  have hfile_marker : ∀ i, i < files.length →
      (parse_entry ((packBlocks files).getD (i + 1) [])).unknown1 =
        (if i + 1 = files.length then [0xFF, 0x01, 0x00] else [0xFF, 0x00, 0x00]) := by
    intro i hi
    rw [packBlocks_getD_succ, packEntries_getD files _ i hi]
    exact parse_mkEntryBytes_unknown1 _ _ _ _ _ _ (by split <;> rfl)
  unfold collectEntries
  by_cases hN : files.length = 0
  · have hbin0 : psum files = 0 := by
      rcases List.eq_nil_of_length_eq_zero hN with rfl
      rfl
    have h1 : (pack_files files).length / 32 = 1 := by
      rw [hnum, hN, hbin0]
    rw [h1, collectFrom_map_no_sentinel (pack_files files) 1 0 (fun j hj => by
      have hj0 : j = 0 := by omega
      subst hj0
      rw [Nat.zero_add, hslot 0 (by omega), hdir_marker]
      decide)]
    exact range_map_to_blocks _ _ 1 (by rw [hblen, hN]) (fun i hi => hslot i (by omega))
  · have hsent : (parse_entry (slotAt (pack_files files)
        (0 + files.length))).unknown1 = sentinel := by
      have hNsucc : files.length - 1 + 1 = files.length := by omega
      have hm := hfile_marker (files.length - 1) (by omega)
      rw [hNsucc, if_pos rfl] at hm
      rw [Nat.zero_add, hslot files.length (by omega), hm]
      rfl
    have hfirst : ∀ j, j < files.length →
        (parse_entry (slotAt (pack_files files) (0 + j))).unknown1 ≠ sentinel := by
      intro j hj
      cases j with
      | zero =>
        rw [Nat.zero_add, hslot 0 (by omega), hdir_marker]
        decide
      | succ j2 =>
        rw [Nat.zero_add, hslot (j2 + 1) (by omega), hfile_marker j2 (by omega),
          if_neg (by omega)]
        decide
    rw [collectFrom_map_sentinel (pack_files files) ((pack_files files).length / 32) 0
      files.length (by rw [hnum]; omega) hsent hfirst]
    exact range_map_to_blocks _ _ (files.length + 1) hblen (fun i hi => hslot i hi)

/-! ## Verification of the packed archive -/

theorem verify_header_mk (d o s t : Nat) (u n16 : List Nat)
    (hd : d < 65536) (ho : o < 4294967296) (hs : s < 4294967296)
    (hu : u.length = 3) (hn : n16.length = 16) :
    verify_header_crc (parse_entry (mkEntryBytes d o s t u n16)) = true := by
  rw [parse_mkEntryBytes d o s t u n16 hd ho hs hu hn]
  unfold verify_header_crc
  simp

theorem psum_take_le (files : List (List Nat × List Nat)) :
    ∀ i, psum (files.take i) ≤ psum files := by
  induction files with
  | nil => intro i; simp [List.take_nil]
  | cons f rest ih =>
    intro i
    cases i with
    | zero => simp [psum]
    | succ i2 =>
      rw [List.take_succ_cons, psum_cons, psum_cons]
      exact Nat.add_le_add_left (ih i2) _

theorem plen_getD_le (files : List (List Nat × List Nat)) :
    ∀ i, i < files.length → plen (files.getD i ([], [])) ≤ psum files := by
  induction files with
  | nil => intro i hi; simp at hi
  | cons f rest ih =>
    intro i hi
    cases i with
    | zero =>
      rw [List.getD_cons_zero, psum_cons]
      omega
    | succ i2 =>
      rw [List.getD_cons_succ, psum_cons]
      have := ih i2 (by simpa using hi)
      omega

theorem content_le_plen (f : List Nat × List Nat) : f.2.length ≤ plen f :=
  pad_length_ge f.2

theorem verify_header_pack (files : List (List Nat × List Nat))
    (hsz : 32 * (files.length + 1) + psum files < 4294967296) :
    ∀ i, i < files.length + 1 →
      verify_header_crc (parse_entry ((packBlocks files).getD i [])) = true := by
  intro i hi
  cases i with
  | zero =>
    rw [packBlocks_getD_zero, packEntries_final]
    exact verify_header_mk _ _ _ _ _ _ (crc16_lt _) (by norm_num) (by omega) rfl
      (ljustName_length _)
  | succ i2 =>
    have hi2 : i2 < files.length := by omega
    rw [packBlocks_getD_succ, packEntries_getD files _ i2 hi2]
    have ho : 32 * (files.length + 1) + psum (files.take i2) < 4294967296 := by
      have := psum_take_le files i2
      omega
    have hs : (files.getD i2 ([], [])).2.length < 4294967296 := by
      have h1 := content_le_plen (files.getD i2 ([], []))
      have h2 := plen_getD_le files i2 hi2
      omega
    exact verify_header_mk _ _ _ _ _ _ (crc16_lt _) ho hs (by split <;> rfl)
      (ljustName_length _)

theorem verify_data_dir_pack (files : List (List Nat × List Nat))
    (hsz : 32 * (files.length + 1) + psum files < 4294967296) :
    verify_data_crc (parse_entry ((packBlocks files).getD 0 [])) (pack_files files) = true := by
  have hparse := parse_mkEntryBytes
    (crc16 ((packEntries files (32 * (files.length + 1))).1.flatten ++
      (packEntries files (32 * (files.length + 1))).2.1))
    0x20 (32 * (files.length + 1) + psum files) 0x03 [0xFF, 0x00, 0x00]
    (ljustName testDirName)
    (crc16_lt _) (by norm_num) (by omega) rfl (ljustName_length _)
  rw [packBlocks_getD_zero, packEntries_final, hparse]
  unfold verify_data_crc payloadDomain
  simp only [Entry.entryType]
  norm_num
  have harg2 : (32 * ((files.length : Int) + 1) + (psum files : Int)) =
      ((32 * (files.length + 1) + psum files : Nat) : Int) := by
    push_cast
    ring
  have harg1 : (32 : Int) = ((32 : Nat) : Int) := by norm_num
  rw [harg2, harg1, pySlice_ofNat]
  congr 1
  unfold sliceNat
  rw [← pack_files_length files, List.take_length, pack_files_eq]
  unfold packBlocks
  rw [List.flatten_cons, List.append_assoc]
  exact List.drop_left' (mkEntryBytes_length _ _ _ _ _ _ rfl (ljustName_length _))

/-- The archive slice at file `i`'s offset and unpadded size is its content. -/
theorem pack_slice_file (files : List (List Nat × List Nat)) (i : Nat) (hi : i < files.length) :
    sliceNat (pack_files files)
      (32 * (files.length + 1) + psum (files.take i))
      (32 * (files.length + 1) + psum (files.take i) + (files.getD i ([], [])).2.length) =
      (files.getD i ([], [])).2 := by
  have hXlen : (packBlocks files).flatten.length = 32 * (files.length + 1) := by
    rw [flatten_length_32 _ (packBlocks_lengths files), packBlocks_length]
  rw [pack_files_eq]
  rw [show 32 * (files.length + 1) + psum (files.take i) =
      (packBlocks files).flatten.length + psum (files.take i) from by rw [hXlen],
    show (packBlocks files).flatten.length + psum (files.take i) +
        (files.getD i ([], [])).2.length =
      (packBlocks files).flatten.length + (psum (files.take i) +
        (files.getD i ([], [])).2.length) from by omega,
    sliceNat_append_right]
  rw [packEntries_binary]
  exact flatten_padded_slice files i hi

theorem verify_data_file_pack (files : List (List Nat × List Nat))
    (hsz : 32 * (files.length + 1) + psum files < 4294967296)
    (i : Nat) (hi : i < files.length) :
    verify_data_crc (parse_entry ((packBlocks files).getD (i + 1) [])) (pack_files files) =
      true := by
  have ho : 32 * (files.length + 1) + psum (files.take i) < 4294967296 := by
    have := psum_take_le files i
    omega
  have hs : (files.getD i ([], [])).2.length < 4294967296 := by
    have h1 := content_le_plen (files.getD i ([], []))
    have h2 := plen_getD_le files i hi
    omega
  have hparse := parse_mkEntryBytes
    (crc16 (files.getD i ([], [])).2)
    (32 * (files.length + 1) + psum (files.take i))
    (files.getD i ([], [])).2.length 0x02
    (if i + 1 = files.length then [0xFF, 0x01, 0x00] else [0xFF, 0x00, 0x00])
    (ljustName (files.getD i ([], [])).1)
    (crc16_lt _) ho hs (by split <;> rfl) (ljustName_length _)
  rw [packBlocks_getD_succ, packEntries_getD files _ i hi, hparse]
  unfold verify_data_crc payloadDomain
  simp only [Entry.entryType]
  norm_num
  rw [if_neg (by decide : ¬(EntryType.File = EntryType.Directory))]
  have hgetD : files[i]?.getD ([], []) = files.getD i ([], []) := by
    rw [List.getD_eq_getElem?_getD]
  rw [hgetD]
  have harg1 : (32 * ((files.length : Int) + 1) + (psum (files.take i) : Int)) =
      ((32 * (files.length + 1) + psum (files.take i) : Nat) : Int) := by
    push_cast
    ring
  rw [harg1]
  have harg2 : (((32 * (files.length + 1) + psum (files.take i) : Nat) : Int) +
      ((files.getD i ([], [])).2.length : Int)) =
      ((32 * (files.length + 1) + psum (files.take i) +
        (files.getD i ([], [])).2.length : Nat) : Int) := by
    push_cast
    ring
  rw [harg2, pySlice_ofNat, pack_slice_file files i hi]

/-- Every entry decoded from a packed archive passes both checks. -/
theorem verify_pack (files : List (List Nat × List Nat))
    (hsz : 32 * (files.length + 1) + psum files < 4294967296) :
    verifyEntries (pack_files files) (collectEntries (pack_files files)) = true := by
  rw [verifyEntries_eq_true_iff, collect_pack]
  intro e he
  obtain ⟨b, hb, rfl⟩ := List.mem_map.mp he
  obtain ⟨j, hj, hjb⟩ := List.getElem_of_mem hb
  have hbD : b = (packBlocks files).getD j [] := by
    rw [List.getD_eq_getElem?_getD, List.getElem?_eq_getElem hj]
    exact hjb.symm
  have hjlen : j < files.length + 1 := by
    rw [← packBlocks_length files]
    exact hj
  rw [hbD]
  constructor
  · exact verify_header_pack files hsz j hjlen
  · cases j with
    | zero => exact verify_data_dir_pack files hsz
    | succ i => exact verify_data_file_pack files hsz i (by omega)

theorem read_pack (files : List (List Nat × List Nat))
    (hsz : 32 * (files.length + 1) + psum files < 4294967296) :
    read_bin_file (pack_files files) =
      some (collectEntries (pack_files files), pack_files files) := by
  unfold read_bin_file
  rw [if_pos (verify_pack files hsz)]

/-! Name round trip through the 16-byte NUL-terminated field. -/

theorem takeWhile_append_stop (p : Nat → Bool) (l1 : List Nat) (x : Nat) (l2 : List Nat)
    (h1 : ∀ b ∈ l1, p b = true) (hx : p x = false) :
    (l1 ++ (x :: l2)).takeWhile p = l1 := by
  induction l1 with
  | nil => simp [List.takeWhile_cons, hx]
  | cons a rest ih =>
    rw [List.cons_append, List.takeWhile_cons, h1 a (List.mem_cons_self a rest)]
    simp [ih (fun b hb => h1 b (List.mem_cons_of_mem a hb))]

theorem ljustName_short (nm : List Nat) (h15 : nm.length ≤ 15) :
    ljustName nm = nm ++ (0 :: List.replicate (15 - nm.length) 0xFF) := by
  unfold ljustName
  have h1 : ((nm ++ [0]) ++ List.replicate 16 0xFF).take 16 =
      ((nm ++ [0]) ++ List.replicate 16 0xFF).take ((nm ++ [0]).length + (15 - nm.length)) := by
    congr 1
    simp only [List.length_append, List.length_cons, List.length_nil]
    omega
  rw [h1, List.take_append, List.take_replicate, List.append_assoc, List.singleton_append,
    show min (15 - nm.length) 16 = 15 - nm.length from by omega]

theorem ljustName_name (nm : List Nat) (h15 : nm.length ≤ 15) (h0 : (0 : Nat) ∉ nm) :
    (ljustName nm).takeWhile (fun b => b ≠ 0) = nm := by
  rw [ljustName_short nm h15]
  apply takeWhile_append_stop
  · intro b hb
    have hb0 : b ≠ 0 := fun e => h0 (e ▸ hb)
    exact decide_eq_true hb0
  · decide

theorem ljustName_long (nm : List Nat) (h : 16 ≤ nm.length) : ljustName nm = nm.take 16 := by
  unfold ljustName
  have h1 : (16 : Nat) ≤ (nm ++ [0]).length := by
    simp only [List.length_append, List.length_cons, List.length_nil]
    omega
  rw [List.take_append_of_le_length h1, List.take_append_of_le_length h]

/-- C1: for every ordered file list (names of at most 15 NUL-free bytes)
whose archive fits the 32-bit offset and size fields, decoding the packed
archive succeeds: every collected entry has `header_ok` and `payload_ok`
true, exactly `N + 1` entries are decoded, and each File entry reproduces
the original file name and, by slicing the archive to the stored (unpadded)
size, the exact original content bytes. -/
theorem pack_decode_roundtrip (files : List (List Nat × List Nat))
    (hname : ∀ f ∈ files, f.1.length ≤ 15 ∧ (0 : Nat) ∉ f.1)
    (hsz : 32 * (files.length + 1) + psum files < 4294967296) :
    read_bin_file (pack_files files) =
      some (collectEntries (pack_files files), pack_files files) ∧
    (∀ e ∈ collectEntries (pack_files files),
      verify_header_crc e = true ∧ verify_data_crc e (pack_files files) = true) ∧
    (collectEntries (pack_files files)).length = files.length + 1 ∧
    ∀ i, i < files.length →
      ((collectEntries (pack_files files)).getD (i + 1) default).entryType =
        EntryType.File ∧
      ((collectEntries (pack_files files)).getD (i + 1) default).name =
        (files.getD i ([], [])).1 ∧
      ((collectEntries (pack_files files)).getD (i + 1) default).size =
        (files.getD i ([], [])).2.length ∧
      extractData ((collectEntries (pack_files files)).getD (i + 1) default)
        (pack_files files) = (files.getD i ([], [])).2 := by
  refine ⟨read_pack files hsz,
    (verifyEntries_eq_true_iff _ _).mp (verify_pack files hsz), ?_, ?_⟩
  · rw [collect_pack, List.length_map, packBlocks_length]
  · intro i hi
    have hilen : i < (packEntries files (32 * (files.length + 1))).1.length := by
      rw [packEntries_length]
      exact hi
    have hE : (collectEntries (pack_files files)).getD (i + 1) default =
        parse_entry ((packEntries files (32 * (files.length + 1))).1.getD i []) := by
      rw [collect_pack]
      unfold packBlocks
      rw [List.map_cons, List.getD_cons_succ, List.getD_eq_getElem?_getD,
        List.getElem?_map, List.getElem?_eq_getElem hilen]
      rw [List.getD_eq_getElem?_getD, List.getElem?_eq_getElem hilen]
      rfl
    have ho : 32 * (files.length + 1) + psum (files.take i) < 4294967296 := by
      have := psum_take_le files i
      omega
    have hs : (files.getD i ([], [])).2.length < 4294967296 := by
      have h1 := content_le_plen (files.getD i ([], []))
      have h2 := plen_getD_le files i hi
      omega
    have hparse := parse_mkEntryBytes
      (crc16 (files.getD i ([], [])).2)
      (32 * (files.length + 1) + psum (files.take i))
      (files.getD i ([], [])).2.length 0x02
      (if i + 1 = files.length then [0xFF, 0x01, 0x00] else [0xFF, 0x00, 0x00])
      (ljustName (files.getD i ([], [])).1)
      (crc16_lt _) ho hs (by split <;> rfl) (ljustName_length _)
    rw [hE, packEntries_getD files _ i hi, hparse]
    have hmem : files.getD i ([], []) ∈ files := by
      rw [List.getD_eq_getElem?_getD, List.getElem?_eq_getElem hi]
      exact List.getElem_mem hi
    refine ⟨?_, ?_, ?_, ?_⟩
    · simp [Entry.entryType]
    · show (ljustName (files.getD i ([], [])).1).takeWhile (fun b => b ≠ 0) =
        (files.getD i ([], [])).1
      exact ljustName_name _ (hname _ hmem).1 (hname _ hmem).2
    · rfl
    · show pySlice (pack_files files)
          ((32 * (files.length + 1) + psum (files.take i) : Nat) : Int)
          (((32 * (files.length + 1) + psum (files.take i) : Nat) : Int) +
            (((files.getD i ([], [])).2.length : Nat) : Int)) =
        (files.getD i ([], [])).2
      have harg : ((32 * (files.length + 1) + psum (files.take i) : Nat) : Int) +
          (((files.getD i ([], [])).2.length : Nat) : Int) =
          ((32 * (files.length + 1) + psum (files.take i) +
            (files.getD i ([], [])).2.length : Nat) : Int) := by
        push_cast
        ring
      rw [harg, pySlice_ofNat, pack_slice_file files i hi]

/-- C1 witness: the round trip at the one-file archive `[("a", 01 02 03)]`. -/
theorem pack_decode_roundtrip_witness :
    read_bin_file (pack_files [([97], [1, 2, 3])]) =
      some (collectEntries (pack_files [([97], [1, 2, 3])]), pack_files [([97], [1, 2, 3])]) ∧
    (collectEntries (pack_files [([97], [1, 2, 3])])).length = 1 + 1 :=
  ⟨(pack_decode_roundtrip [([97], [1, 2, 3])] (by decide) (by decide)).1,
   (pack_decode_roundtrip [([97], [1, 2, 3])] (by decide) (by decide)).2.2.1⟩

/-- C7 counterexample: the packed directory entry's name is the fixed
`"test_dir"`, which differs from the one directory name the program's caller
actually supplies (the input directory `"soundbox"`): `pack_files` has no
directory-name parameter at all. -/
theorem pack_dir_name_hardcoded_cex :
    (parse_entry (slotAt (pack_files [([97], [1, 2, 3])]) 0)).nameField =
      ljustName testDirName ∧
    ljustName testDirName ≠ ljustName [115, 111, 117, 110, 100, 98, 111, 120] :=
  ⟨by decide, by decide⟩

/-- C7 (amended): the synthesized Directory entry occupies the first of the
`N + 1` header slots and decodes with offset field 0x20, size field
`32 * (N + 1)` plus the total padded payload length (the final 32-byte
adjustment excluded), Directory kind (tag 0x03), marker `FF 00 00`, and the
fixed name `"test_dir"` (NUL-terminated, right-padded with 0xFF to 16
bytes), regardless of any caller-chosen directory. -/
theorem pack_dir_entry_fields (files : List (List Nat × List Nat))
    (hsz : 32 * (files.length + 1) + psum files < 4294967296) :
    (collectEntries (pack_files files)).getD 0 default =
      parse_entry (slotAt (pack_files files) 0) ∧
    ((collectEntries (pack_files files)).getD 0 default).offset = 0x20 ∧
    ((collectEntries (pack_files files)).getD 0 default).size =
      32 * (files.length + 1) + psum files ∧
    ((collectEntries (pack_files files)).getD 0 default).entryType =
      EntryType.Directory ∧
    ((collectEntries (pack_files files)).getD 0 default).unknown1 = [0xFF, 0x00, 0x00] ∧
    ((collectEntries (pack_files files)).getD 0 default).nameField =
      ljustName testDirName := by
  have hD : (collectEntries (pack_files files)).getD 0 default =
      parse_entry ((packBlocks files).getD 0 []) := by
    rw [collect_pack]
    rfl
  have hslot0 : slotAt (pack_files files) 0 = (packBlocks files).getD 0 [] := by
    rw [pack_files_eq]
    exact slotAt_flatten _ _ (packBlocks_lengths files) 0 (by rw [packBlocks_length]; omega)
  have hparse := parse_mkEntryBytes
    (crc16 ((packEntries files (32 * (files.length + 1))).1.flatten ++
      (packEntries files (32 * (files.length + 1))).2.1))
    0x20 (32 * (files.length + 1) + psum files) 0x03 [0xFF, 0x00, 0x00]
    (ljustName testDirName)
    (crc16_lt _) (by norm_num) (by omega) rfl (ljustName_length _)
  refine ⟨by rw [hD, hslot0], ?_, ?_, ?_, ?_, ?_⟩ <;>
    rw [hD, packBlocks_getD_zero, packEntries_final, hparse]
  simp [Entry.entryType]

/-- C7 witness: the directory-entry fields at the one-file archive. -/
theorem pack_dir_entry_fields_witness :
    ((collectEntries (pack_files [([97], [1, 2, 3])])).getD 0 default).offset = 0x20 ∧
    ((collectEntries (pack_files [([97], [1, 2, 3])])).getD 0 default).size =
      32 * (([([97], [1, 2, 3])] : List (List Nat × List Nat)).length + 1) +
        psum [([97], [1, 2, 3])] ∧
    ((collectEntries (pack_files [([97], [1, 2, 3])])).getD 0 default).entryType =
      EntryType.Directory :=
  ⟨(pack_dir_entry_fields [([97], [1, 2, 3])] (by decide)).2.1,
   (pack_dir_entry_fields [([97], [1, 2, 3])] (by decide)).2.2.1,
   (pack_dir_entry_fields [([97], [1, 2, 3])] (by decide)).2.2.2.1⟩

/-- C8 counterexample: a file whose name is 17 bytes long is not rejected
and no error path exists: encode still produces the complete 80-byte
archive, storing the name truncated to 16 bytes. -/
theorem pack_long_name_cex :
    (pack_files [(List.replicate 17 97, [1, 2, 3])]).length = 80 ∧
    (parse_entry (slotAt (pack_files [(List.replicate 17 97, [1, 2, 3])]) 1)).nameField =
      List.replicate 16 97 :=
  ⟨by decide, by decide⟩

/-- C8 (amended): encode performs no name validation and cannot fail on a
long name: the full archive is always produced (its length is the
`N + 1` header slots plus the padded payload), and a name longer than 15
bytes is silently truncated — the stored 16-byte name field is the first 16
bytes of the name. -/
theorem pack_no_name_validation (files : List (List Nat × List Nat))
    (hsz : 32 * (files.length + 1) + psum files < 4294967296)
    (i : Nat) (hi : i < files.length) (hlong : 15 < (files.getD i ([], [])).1.length) :
    (pack_files files).length = 32 * (files.length + 1) + psum files ∧
    (parse_entry (slotAt (pack_files files) (i + 1))).nameField =
      (files.getD i ([], [])).1.take 16 := by
  refine ⟨pack_files_length files, ?_⟩
  have hslot : slotAt (pack_files files) (i + 1) = (packBlocks files).getD (i + 1) [] := by
    rw [pack_files_eq]
    exact slotAt_flatten _ _ (packBlocks_lengths files) (i + 1)
      (by rw [packBlocks_length]; omega)
  have ho : 32 * (files.length + 1) + psum (files.take i) < 4294967296 := by
    have := psum_take_le files i
    omega
  have hs : (files.getD i ([], [])).2.length < 4294967296 := by
    have h1 := content_le_plen (files.getD i ([], []))
    have h2 := plen_getD_le files i hi
    omega
  have hparse := parse_mkEntryBytes
    (crc16 (files.getD i ([], [])).2)
    (32 * (files.length + 1) + psum (files.take i))
    (files.getD i ([], [])).2.length 0x02
    (if i + 1 = files.length then [0xFF, 0x01, 0x00] else [0xFF, 0x00, 0x00])
    (ljustName (files.getD i ([], [])).1)
    (crc16_lt _) ho hs (by split <;> rfl) (ljustName_length _)
  rw [hslot, packBlocks_getD_succ, packEntries_getD files _ i hi, hparse]
  show ljustName (files.getD i ([], [])).1 = (files.getD i ([], [])).1.take 16
  exact ljustName_long _ (by omega)

/-- C8 witness: the amended behavior at a concrete 17-byte file name. -/
theorem pack_no_name_validation_witness :
    (pack_files [(List.replicate 17 97, [1, 2, 3])]).length =
      32 * (([(List.replicate 17 97, [1, 2, 3])] : List (List Nat × List Nat)).length + 1) +
        psum [(List.replicate 17 97, [1, 2, 3])] ∧
    (parse_entry (slotAt (pack_files [(List.replicate 17 97, [1, 2, 3])]) (0 + 1))).nameField =
      (([(List.replicate 17 97, [1, 2, 3])] :
        List (List Nat × List Nat)).getD 0 ([], [])).1.take 16 :=
  pack_no_name_validation [(List.replicate 17 97, [1, 2, 3])] (by decide) 0 (by decide)
    (by decide)

end Soundbox
